import Mathlib

/-!
Verification of the modern_hashing hash-table library.

Each C++ table variant is shallowly embedded as Lean definitions over
`Nat`-valued keys and values (the sources instantiate the templates at
`int` / `uint64_t`; `std::hash` for these integral types is the identity
in libstdc++, so concrete traces below use `id` as the hash function,
while all general theorems quantify over an arbitrary hash function).
Machine integers are modelled as `Nat`, with explicit `% 2 ^ 64` where
64-bit wrap-around matters (splitmix64 mixing).  Floating-point
threshold and sizing computations are modelled by the exact rational /
integer-logarithm values they compute; every such place carries a
comment, and each concrete instantiation used in a theorem was checked
to coincide with the IEEE-double evaluation of the source expression.

List indexing convention: C++ `vector` access inside the tables is
always in bounds in well-formed states (the `WF` predicates); the
embedding uses `List.getD` with a default that is only reached outside
that region.
-/

set_option autoImplicit false

/-- Read a list element with a default (models in-bounds `vector::operator[]`). -/
def getd {α : Type} (l : List α) (i : ℕ) (d : α) : α := (l.get? i).getD d

theorem getd_set_self {α : Type} (l : List α) (i : ℕ) (x d : α) (h : i < l.length) :
    getd (l.set i x) i d = x := by
  simp [getd, List.get?_eq_getElem?, List.getElem?_set_self', List.getElem?_eq_some_iff, h]

theorem getd_set_ne {α : Type} (l : List α) (i j : ℕ) (x d : α) (h : j ≠ i) :
    getd (l.set i x) j d = getd l j d := by
  simp [getd, List.get?_eq_getElem?, List.getElem?_set_ne (fun hh => h hh.symm)]

theorem getd_replicate {α : Type} (n i : ℕ) (x d : α) (h : i < n) :
    getd (List.replicate n x) i d = x := by
  simp [getd, List.get?_eq_getElem?, List.getElem?_replicate, h]

/-! ## Separate-chaining fixed table (src/include/fixed_list_chain.h) -/

namespace FixedListChainedHashTable

/-- One hash-table state: `capacity_` buckets, each an ordered list of
key-value pairs, plus the live-entry counter `size_`
(`FixedListChainedHashTable` in src/include/fixed_list_chain.h). -/
structure State where
  capacity_ : ℕ
  size_ : ℕ
  table : List (List (ℕ × ℕ))
  deriving Repr, DecidableEq

/-- Constructor: `capacity` empty buckets. -/
def mk (capacity : ℕ) : State :=
  ⟨capacity, 0, List.replicate capacity []⟩

/-- Bucket index `hasher(key) % capacity_`. -/
def bidx (hash : ℕ → ℕ) (cap k : ℕ) : ℕ := hash k % cap

/-- Scan a chain for the key; overwrite its value if found, else append.
Also reports whether an existing entry was overwritten. -/
def chainPut (k v : ℕ) : List (ℕ × ℕ) → List (ℕ × ℕ) × Bool
  | [] => ([(k, v)], false)
  | (k', v') :: rest =>
    if k' = k then ((k', v) :: rest, true)
    else
      let r := chainPut k v rest
      ((k', v') :: r.1, r.2)

/-- Scan a chain for the key and return its value. -/
def chainFind (k : ℕ) : List (ℕ × ℕ) → Option ℕ
  | [] => none
  | (k', v') :: rest => if k' = k then some v' else chainFind k rest

/-- Remove the first entry with the given key from a chain; report success. -/
def chainDrop (k : ℕ) : List (ℕ × ℕ) → List (ℕ × ℕ) × Bool
  | [] => ([], false)
  | (k', v') :: rest =>
    if k' = k then (rest, true)
    else
      let r := chainDrop k rest
      ((k', v') :: r.1, r.2)

/-- `insert`: overwrite the value if the key is in its bucket, else append
the pair to the bucket and increment `size_`. -/
def insert (hash : ℕ → ℕ) (t : State) (k v : ℕ) : State :=
  let i := bidx hash t.capacity_ k
  let r := chainPut k v (getd t.table i [])
  { t with table := t.table.set i r.1,
           size_ := if r.2 then t.size_ else t.size_ + 1 }

/-- `lookup`: linear scan of the key's bucket. -/
def lookup (hash : ℕ → ℕ) (t : State) (k : ℕ) : Option ℕ :=
  chainFind k (getd t.table (bidx hash t.capacity_ k) [])

/-- `update`: overwrite in place, no insertion on miss. -/
def update (hash : ℕ → ℕ) (t : State) (k v : ℕ) : Bool × State :=
  let i := bidx hash t.capacity_ k
  let r := chainPut k v (getd t.table i [])
  if r.2 then (true, { t with table := t.table.set i r.1 }) else (false, t)

/-- `remove`: erase the first matching entry from the bucket. -/
def remove (hash : ℕ → ℕ) (t : State) (k : ℕ) : Bool × State :=
  let i := bidx hash t.capacity_ k
  let r := chainDrop k (getd t.table i [])
  if r.2 then (true, { t with table := t.table.set i r.1, size_ := t.size_ - 1 })
  else (false, t)

/-- `clear`: empty every bucket, reset the counter, keep the bucket count. -/
def clear (t : State) : State :=
  { t with table := t.table.map fun _ => [], size_ := 0 }

/-- `size`: the live-entry counter. -/
def size (t : State) : ℕ := t.size_

/-- `capacity`: the (fixed) bucket count. -/
def capacity (t : State) : ℕ := t.capacity_

/-- `loadFactor`: live entries over bucket count, as an exact rational
(the C++ divides two `double` casts). -/
def loadFactor (t : State) : ℚ := (t.size_ : ℚ) / (t.capacity_ : ℚ)

/-- Well-formedness: a positive bucket count matching the bucket list. -/
def WF (t : State) : Prop := 0 < t.capacity_ ∧ t.table.length = t.capacity_

instance (t : State) : Decidable (WF t) := by unfold WF; infer_instance

/-- The abstract operations a client can perform. -/
inductive Op where
  | ins (k v : ℕ)
  | upd (k v : ℕ)
  | rem (k : ℕ)
  | clr
  deriving Repr

/-- Apply one operation to a state. -/
def applyOp (hash : ℕ → ℕ) (t : State) : Op → State
  | .ins k v => insert hash t k v
  | .upd k v => (update hash t k v).2
  | .rem k => (remove hash t k).2
  | .clr => clear t

/-- Apply a sequence of operations. -/
def applyOps (hash : ℕ → ℕ) (t : State) (ops : List Op) : State :=
  ops.foldl (applyOp hash) t

theorem chainPut_find_self (k v : ℕ) (ch : List (ℕ × ℕ)) :
    chainFind k (chainPut k v ch).1 = some v := by
  induction ch with
  | nil => simp [chainPut, chainFind]
  | cons hd tl ih =>
    by_cases h : hd.1 = k
    · simp [chainPut, chainFind, h]
    · simp [chainPut, chainFind, h, ih]

theorem chainPut_find_other (k v q : ℕ) (ch : List (ℕ × ℕ)) (hq : q ≠ k) :
    chainFind q (chainPut k v ch).1 = chainFind q ch := by
  have hkq : ¬k = q := fun h => hq h.symm
  induction ch with
  | nil => simp [chainPut, chainFind, hkq]
  | cons hd tl ih =>
    by_cases h : hd.1 = k
    · have : ¬hd.1 = q := by rw [h]; exact hkq
      simp [chainPut, chainFind, h, this, hkq]
    · by_cases h2 : hd.1 = q <;>
        simp [chainPut, chainFind, h, h2, ih, fun hh : q = k => hq hh]

theorem chainPut_fresh (k v : ℕ) (ch : List (ℕ × ℕ)) (h : chainFind k ch = none) :
    (chainPut k v ch).2 = false := by
  induction ch with
  | nil => simp [chainPut]
  | cons hd tl ih =>
    by_cases hh : hd.1 = k
    · simp [chainFind, hh] at h
    · simp [chainFind, hh] at h
      simp [chainPut, hh, ih h]

theorem insert_capacity (hash : ℕ → ℕ) (t : State) (k v : ℕ) :
    (insert hash t k v).capacity_ = t.capacity_ := rfl

theorem insert_lookup_self (hash : ℕ → ℕ) (t : State) (k v : ℕ) (hwf : WF t) :
    lookup hash (insert hash t k v) k = some v := by
  obtain ⟨hpos, hlen⟩ := hwf
  have hidx : bidx hash t.capacity_ k < t.table.length := by
    rw [hlen]; exact Nat.mod_lt _ hpos
  simp only [lookup, insert, insert_capacity]
  rw [getd_set_self _ _ _ _ hidx]
  exact chainPut_find_self k v _

theorem insert_lookup_other (hash : ℕ → ℕ) (t : State) (k v q : ℕ) (hq : q ≠ k) :
    lookup hash (insert hash t k v) q = lookup hash t q := by
  simp only [lookup, insert]
  by_cases hsame : bidx hash t.capacity_ q = bidx hash t.capacity_ k
  · by_cases hlt : bidx hash t.capacity_ k < t.table.length
    · rw [hsame, getd_set_self _ _ _ _ hlt, ← hsame]
      rw [hsame]
      exact chainPut_find_other k v q _ hq
    · rw [List.set_eq_of_length_le (Nat.le_of_not_lt hlt)]
  · rw [getd_set_ne _ _ _ _ _ hsame]

theorem applyOp_capacity (hash : ℕ → ℕ) (t : State) (o : Op) :
    (applyOp hash t o).capacity_ = t.capacity_ := by
  cases o with
  | ins k v => rfl
  | upd k v =>
    simp only [applyOp, update]
    by_cases h : (chainPut k v (getd t.table (bidx hash t.capacity_ k) [])).2 <;> simp [h]
  | rem k =>
    simp only [applyOp, remove]
    by_cases h : (chainDrop k (getd t.table (bidx hash t.capacity_ k) [])).2 <;> simp [h]
  | clr => rfl

theorem applyOps_capacity (hash : ℕ → ℕ) (t : State) (ops : List Op) :
    (applyOps hash t ops).capacity_ = t.capacity_ := by
  induction ops generalizing t with
  | nil => rfl
  | cons o rest ih =>
    simp only [applyOps, List.foldl_cons]
    have h2 := ih (applyOp hash t o)
    simp only [applyOps] at h2
    rw [h2, applyOp_capacity]

theorem insert_size_fresh (hash : ℕ → ℕ) (t : State) (k v : ℕ)
    (h : lookup hash t k = none) :
    (insert hash t k v).size_ = t.size_ + 1 := by
  simp only [lookup] at h
  simp only [insert]
  simp [chainPut_fresh k v _ h]

theorem fresh_lookup_none (hash : ℕ → ℕ) (B k : ℕ) :
    lookup hash (mk B) k = none := by
  simp only [lookup, mk]
  by_cases h : bidx hash B k < B
  · rw [getd_replicate _ _ _ _ h]; rfl
  · have : (List.replicate B ([] : List (ℕ × ℕ))).get? (bidx hash B k) = none := by
      rw [List.get?_eq_none]
      simpa using Nat.le_of_not_lt h
    simp [getd, this]; rfl

/-- Inserting a list of pairs in order. -/
def insertAll (hash : ℕ → ℕ) (t : State) (ps : List (ℕ × ℕ)) : State :=
  ps.foldl (fun a p => insert hash a p.1 p.2) t

theorem insertAll_lookup_none (hash : ℕ → ℕ) (t : State) (ps : List (ℕ × ℕ)) (q : ℕ)
    (hq : q ∉ ps.map Prod.fst) (h : lookup hash t q = none) :
    lookup hash (insertAll hash t ps) q = none := by
  induction ps generalizing t with
  | nil => exact h
  | cons p rest ih =>
    simp only [List.map_cons, List.mem_cons] at hq
    push_neg at hq
    simp only [insertAll, List.foldl_cons]
    exact ih _ hq.2 (by rw [insert_lookup_other hash t p.1 p.2 q hq.1]; exact h)

theorem insertAll_size (hash : ℕ → ℕ) (t : State) (ps : List (ℕ × ℕ))
    (hn : (ps.map Prod.fst).Nodup) (h : ∀ p ∈ ps, lookup hash t p.1 = none) :
    (insertAll hash t ps).size_ = t.size_ + ps.length := by
  induction ps generalizing t with
  | nil => rfl
  | cons p rest ih =>
    simp only [List.map_cons, List.nodup_cons] at hn
    simp only [insertAll, List.foldl_cons]
    have hfresh : lookup hash t p.1 = none := h p (by simp)
    have hrest : ∀ q ∈ rest, lookup hash (insert hash t p.1 p.2) q.1 = none := by
      intro q hqmem
      have hne : q.1 ≠ p.1 := by
        intro he
        exact hn.1 (he ▸ List.mem_map_of_mem Prod.fst hqmem)
      rw [insert_lookup_other hash t p.1 p.2 q.1 hne]
      exact h q (List.mem_cons_of_mem _ hqmem)
    have h2 := ih (insert hash t p.1 p.2) hn.2 hrest
    simp only [insertAll] at h2
    rw [h2, insert_size_fresh hash t p.1 p.2 hfresh]
    simp [Nat.add_assoc, Nat.add_comm 1]

end FixedListChainedHashTable

/-! ## Linear-probing open addressing with dynamic resizing
(src/dynamic_resizing.h `DynamicResizing`; src/unnamed/part_002 `Baseline1`
is the same algorithm with a `void` insert). -/

namespace DynamicResizing

/-- Slot of the linear-probing table: three-state occupancy.  The C++
`Slot` keeps junk key/value data in EMPTY/DELETED slots; they are never
read there, so the states carry no data. -/
inductive DSlot where
  | empty
  | occupied (k v : ℕ)
  | deleted
  deriving Repr, DecidableEq

/-- Table state: slot array and live-entry count. -/
structure State where
  table : List DSlot
  count : ℕ
  deriving Repr, DecidableEq

/-- Constructor with an initial capacity. -/
def mk (initialCapacity : ℕ) : State :=
  ⟨List.replicate initialCapacity .empty, 0⟩

/-- A slot that keeps an insert probe going: occupied by a different key. -/
def isBlocking (k : ℕ) : DSlot → Bool
  | .occupied k' _ => k' != k
  | _ => false

/-- The insert probe loop of `DynamicResizing::insert`: visit offsets
`0, 1, …` from `start`, overwrite on an equal occupied key, place at the
first EMPTY-or-DELETED slot, and fail (`return false` in the source) when
the probe wraps to its start.  The wrap test `idx == start` is modelled
by bounding the visited offsets by the slot count (`fuel` starts at
`table.length`), which is equivalent for a nonempty table.  Returns
`some true` when stored at a free slot, `some false` on overwrite,
`none` on wrap. -/
def insertLoop (k v : ℕ) (tbl : List DSlot) (start : ℕ) : ℕ → ℕ → Option Bool × List DSlot
  | 0, _ => (none, tbl)
  | r + 1, i =>
    match getd tbl ((start + i) % tbl.length) .empty with
    | .occupied k' _ =>
      if k' = k then (some false, tbl.set ((start + i) % tbl.length) (.occupied k v))
      else insertLoop k v tbl start r (i + 1)
    | _ => (some true, tbl.set ((start + i) % tbl.length) (.occupied k v))

/-- The shared probe loop of `lookup` / `update` / `remove`: stop at the
first EMPTY slot, skip DELETED slots, report the index of an occupied
slot with an equal key.  The wrap exit is modelled by the same fuel
convention as `insertLoop`. -/
def findLoop (k : ℕ) (tbl : List DSlot) (start : ℕ) : ℕ → ℕ → Option ℕ
  | 0, _ => none
  | r + 1, i =>
    match getd tbl ((start + i) % tbl.length) .empty with
    | .empty => none
    | .occupied k' _ =>
      if k' = k then some ((start + i) % tbl.length) else findLoop k tbl start r (i + 1)
    | .deleted => findLoop k tbl start r (i + 1)

/-- `insert` with a fuel bound on resize recursion (the C++ recursion
`resize → insert` is finite on table states reachable from the
constructor; fuel makes the embedding total).  The threshold
`(float)(count + 1) / table.size() > 0.6f` is modelled by the exact
rational comparison `(count + 1) / N > 3 / 5`; the two agree for every
table size arising in the development (`0.6f` only differs from `3/5`
by one part in `2²⁴`).  `insertAt` is the probe-and-place tail of the
C++ insert applied to the (possibly resized) state: the count grows only
when a free slot was consumed, and a wrapped probe leaves the state
unchanged and reports failure. -/
def insertAt (t1 : State) (k v : ℕ) (start : ℕ) : Bool × State :=
  match insertLoop k v t1.table start t1.table.length 0 with
  | (some true, tb) => (true, ⟨tb, t1.count + 1⟩)
  | (some false, tb) => (true, ⟨tb, t1.count⟩)
  | (none, tb) => (false, ⟨tb, t1.count⟩)

/-- The full `DynamicResizing::insert`, with the resize recursion bounded
by fuel. -/
def insert (hash : ℕ → ℕ) : ℕ → State → ℕ → ℕ → Bool × State
  | fuel, t, k, v =>
    let t1 :=
      if 5 * (t.count + 1) > 3 * t.table.length then
        match fuel with
        | 0 => t
        | f + 1 =>
          t.table.foldl
            (fun acc s =>
              match s with
              | .occupied k' v' => (insert hash f acc k' v').2
              | _ => acc)
            (mk (2 * t.table.length))
      else t
    insertAt t1 k v (hash k % t1.table.length)

/-- `lookup`: probe, then read the found slot's value. -/
def lookup (hash : ℕ → ℕ) (t : State) (k : ℕ) : Option ℕ :=
  match findLoop k t.table (hash k % t.table.length) t.table.length 0 with
  | some idx =>
    match getd t.table idx .empty with
    | .occupied _ v => some v
    | _ => none
  | none => none

/-- `remove`: probe, then mark the found slot DELETED and decrement count. -/
def remove (hash : ℕ → ℕ) (t : State) (k : ℕ) : Bool × State :=
  match findLoop k t.table (hash k % t.table.length) t.table.length 0 with
  | some idx => (true, ⟨t.table.set idx .deleted, t.count - 1⟩)
  | none => (false, t)

theorem insertLoop_blocked (k v : ℕ) (tbl : List DSlot) (start : ℕ)
    (hall : tbl.all (isBlocking k) = true) (hpos : 0 < tbl.length) :
    ∀ r i, insertLoop k v tbl start r i = (none, tbl) := by
  intro r
  induction r with
  | zero => intro i; rfl
  | succ r ih =>
    intro i
    have hidx : (start + i) % tbl.length < tbl.length := Nat.mod_lt _ hpos
    have hmem : getd tbl ((start + i) % tbl.length) .empty ∈ tbl := by
      simp only [getd, List.get?_eq_getElem?, List.getElem?_eq_getElem hidx, Option.getD_some]
      exact List.getElem_mem _
    have hblock := List.all_eq_true.mp hall _ hmem
    unfold insertLoop
    cases hslot : getd tbl ((start + i) % tbl.length) .empty with
    | empty => rw [hslot] at hblock; simp [isBlocking] at hblock
    | deleted => rw [hslot] at hblock; simp [isBlocking] at hblock
    | occupied k' v' =>
      rw [hslot] at hblock
      simp only [isBlocking, ne_eq, bne_iff_ne] at hblock
      simp only [hslot]
      rw [if_neg hblock]
      exact ih (i + 1)

theorem probe_covers (N start idx : ℕ) (hN : 0 < N) (hidx : idx < N) :
    ∃ m, m < N ∧ (start + m) % N = idx := by
  refine ⟨(idx + (N - start % N)) % N, Nat.mod_lt _ hN, ?_⟩
  have h1 : start % N ≤ start := Nat.mod_le _ _
  have h2 : start % N < N := Nat.mod_lt _ hN
  have h3 : N * (start / N) + start % N = start := Nat.div_add_mod start N
  rw [Nat.add_mod_mod]
  have h4 : start + (idx + (N - start % N)) = idx + N * (start / N) + N := by omega
  rw [h4, Nat.add_mod_right, Nat.add_mul_mod_self_left, Nat.mod_eq_of_lt hidx]

theorem probe_distinct (N start m j : ℕ) (hm : m < j) (hj : j < N) :
    (start + m) % N ≠ (start + j) % N := by
  intro heq
  have hmod : m ≡ j [MOD N] := Nat.ModEq.add_left_cancel' start heq
  have : m % N = j % N := hmod
  rw [Nat.mod_eq_of_lt (lt_trans hm hj), Nat.mod_eq_of_lt hj] at this
  omega

theorem insertLoop_none_blocked (k v : ℕ) (tbl : List DSlot) (start : ℕ) :
    ∀ r i tbl2, insertLoop k v tbl start r i = (none, tbl2) →
      ∀ m, i ≤ m → m < i + r →
        isBlocking k (getd tbl ((start + m) % tbl.length) .empty) = true := by
  intro r
  induction r with
  | zero => intro i tbl2 _ m h1 h2; omega
  | succ r ih =>
    intro i tbl2 hrun m h1 h2
    unfold insertLoop at hrun
    split at hrun
    · rename_i k' v' hslot
      split at hrun
      · simp at hrun
      · rename_i hk
        rcases Nat.eq_or_lt_of_le h1 with he | hlt
        · rw [← he, hslot]; simp [isBlocking, hk]
        · exact ih (i + 1) tbl2 hrun m hlt (by omega)
    · simp at hrun

theorem insertLoop_some_spec (k v : ℕ) (tbl : List DSlot) (start : ℕ) :
    ∀ r i b tbl2, insertLoop k v tbl start r i = (some b, tbl2) →
      ∃ j, i ≤ j ∧ j < i + r ∧
        (∀ m, i ≤ m → m < j →
          isBlocking k (getd tbl ((start + m) % tbl.length) .empty) = true) ∧
        tbl2 = tbl.set ((start + j) % tbl.length) (.occupied k v) := by
  intro r
  induction r with
  | zero => intro i b tbl2 h; simp [insertLoop] at h
  | succ r ih =>
    intro i b tbl2 hrun
    unfold insertLoop at hrun
    split at hrun
    · rename_i k' v' hslot
      split at hrun
      · refine ⟨i, le_refl i, by omega, fun m h1 h2 => by omega, ?_⟩
        exact (Prod.mk.injEq _ _ _ _ ▸ hrun).2.symm
      · rename_i hk
        obtain ⟨j, hj1, hj2, hj3, hj4⟩ := ih (i + 1) b tbl2 hrun
        refine ⟨j, by omega, by omega, ?_, hj4⟩
        intro m h1 h2
        rcases Nat.eq_or_lt_of_le h1 with he | hlt
        · rw [← he, hslot]; simp [isBlocking, hk]
        · exact hj3 m hlt h2
    · refine ⟨i, le_refl i, by omega, fun m h1 h2 => by omega, ?_⟩
      exact (Prod.mk.injEq _ _ _ _ ▸ hrun).2.symm

theorem findLoop_reach (k v : ℕ) (tb : List DSlot) (start : ℕ) :
    ∀ r i j, i ≤ j → j < i + r →
      (∀ m, i ≤ m → m < j →
        isBlocking k (getd tb ((start + m) % tb.length) .empty) = true) →
      getd tb ((start + j) % tb.length) .empty = .occupied k v →
      findLoop k tb start r i = some ((start + j) % tb.length) := by
  intro r
  induction r with
  | zero => intro i j h1 h2; omega
  | succ r ih =>
    intro i j h1 h2 hblock hslot
    rcases Nat.eq_or_lt_of_le h1 with he | hlt
    · subst he
      unfold findLoop
      rw [hslot]
      simp
    · have hbi := hblock i (le_refl i) hlt
      unfold findLoop
      cases hsi : getd tb ((start + i) % tb.length) .empty with
      | empty => rw [hsi] at hbi; simp [isBlocking] at hbi
      | deleted =>
        rw [hsi] at hbi
        simp only [hsi]
        exact ih (i + 1) j hlt (by omega) (fun m hm1 hm2 => hblock m (by omega) hm2) hslot
      | occupied k' v' =>
        rw [hsi] at hbi
        simp only [isBlocking, bne_iff_ne, ne_eq] at hbi
        simp only [hsi]
        rw [if_neg hbi]
        exact ih (i + 1) j hlt (by omega) (fun m hm1 hm2 => hblock m (by omega) hm2) hslot

theorem insertAt_wrap (t1 : State) (k v start : ℕ) (hpos : 0 < t1.table.length)
    (hall : t1.table.all (isBlocking k) = true) :
    insertAt t1 k v start = (false, t1) := by
  unfold insertAt
  rw [insertLoop_blocked k v _ start hall hpos _ 0]

theorem insertAt_stores (t1 : State) (k v start : ℕ) (hpos : 0 < t1.table.length)
    (hnall : t1.table.all (isBlocking k) = false) :
    ∃ j c2, j < t1.table.length ∧
      (∀ m, m < j → isBlocking k (getd t1.table ((start + m) % t1.table.length) .empty) = true) ∧
      insertAt t1 k v start =
        (true, ⟨t1.table.set ((start + j) % t1.table.length) (.occupied k v), c2⟩) := by
  cases hres : insertLoop k v t1.table start t1.table.length 0 with
  | mk ob tb =>
    cases ob with
    | none =>
      exfalso
      have hblocked := insertLoop_none_blocked k v t1.table start _ 0 tb hres
      have hall : t1.table.all (isBlocking k) = true := by
        rw [List.all_eq_true]
        intro x hx
        obtain ⟨idx, hidx, hget⟩ := List.mem_iff_getElem.mp hx
        obtain ⟨m, hm, hcov⟩ := probe_covers t1.table.length start idx hpos hidx
        have := hblocked m (Nat.zero_le m) (by omega)
        rw [hcov] at this
        have hgd : getd t1.table idx .empty = x := by
          simp [getd, List.get?_eq_getElem?, List.getElem?_eq_getElem hidx, hget]
        rw [hgd] at this
        exact this
      rw [hall] at hnall
      simp at hnall
    | some b =>
      obtain ⟨j, _, hj2, hj3, hj4⟩ := insertLoop_some_spec k v t1.table start _ 0 b tb hres
      refine ⟨j, if b then t1.count + 1 else t1.count, by omega,
        fun m h2 => hj3 m (Nat.zero_le m) h2, ?_⟩
      unfold insertAt
      rw [hres, hj4]
      cases b <;> rfl

theorem insert_wrap (hash : ℕ → ℕ) (fuel : ℕ) (t : State) (k v : ℕ)
    (hpos : 0 < t.table.length)
    (hthr : ¬5 * (t.count + 1) > 3 * t.table.length)
    (hall : t.table.all (isBlocking k) = true) :
    insert hash fuel t k v = (false, t) := by
  cases fuel <;>
    · simp only [insert]
      rw [if_neg hthr]
      exact insertAt_wrap t k v _ hpos hall

theorem insert_found (hash : ℕ → ℕ) (fuel : ℕ) (t : State) (k v : ℕ)
    (hpos : 0 < t.table.length)
    (hthr : ¬5 * (t.count + 1) > 3 * t.table.length)
    (hnall : t.table.all (isBlocking k) = false) :
    (insert hash fuel t k v).1 = true ∧
    lookup hash (insert hash fuel t k v).2 k = some v := by
  obtain ⟨j, c2, hjlt, hblock, hstore⟩ :=
    insertAt_stores t k v (hash k % t.table.length) hpos hnall
  have hins : insert hash fuel t k v =
      (true, ⟨t.table.set ((hash k % t.table.length + j) % t.table.length) (.occupied k v), c2⟩) := by
    cases fuel <;>
      · simp only [insert]
        rw [if_neg hthr]
        exact hstore
  rw [hins]
  refine ⟨rfl, ?_⟩
  set N := t.table.length with hN
  set start := hash k % N with hstart
  set idx := (start + j) % N with hidx
  have hlen2 : (t.table.set idx (DSlot.occupied k v)).length = N := by
    rw [List.length_set]
  have hidxlt : idx < N := Nat.mod_lt _ hpos
  have hfind : findLoop k (t.table.set idx (DSlot.occupied k v)) start N 0 = some idx := by
    have := findLoop_reach k v (t.table.set idx (DSlot.occupied k v)) start N 0 j
      (Nat.zero_le j) (by omega) ?_ ?_
    · rw [hlen2] at this; exact this
    · intro m hm1 hm2
      rw [hlen2]
      rw [getd_set_ne _ _ _ _ _ (probe_distinct N start m j hm2 hjlt)]
      exact hblock m hm2
    · rw [hlen2]
      exact getd_set_self _ _ _ _ hidxlt
  simp only [lookup, hlen2, ← hstart, hfind]
  rw [getd_set_self _ _ _ _ hidxlt]

end DynamicResizing

/-! ## Two-level perfect hashing (src/include/perfect_hashing.h). -/

namespace SecondaryTable

/-- Per-bucket open-addressing table: quadratic-space slot array, live
count and slot capacity (`SecondaryTable` in src/include/perfect_hashing.h;
a default-constructed one has `capacity = 0`). -/
structure State where
  table : List (Option (ℕ × ℕ))
  size : ℕ
  capacity : ℕ
  deriving Repr, DecidableEq

/-- The `while (table[h].has_value())` placement loop of `build`: linear
probe to the first free slot.  The C++ loop has no wrap exit and would
cycle forever on a full table; the fuel (instantiated with `capacity`)
covers every probe of a table that has a free slot, which `build`'s
quadratic sizing guarantees. -/
def placeFrom (e : ℕ × ℕ) (cap : ℕ) (tbl : List (Option (ℕ × ℕ))) (h : ℕ) :
    ℕ → List (Option (ℕ × ℕ))
  | 0 => tbl
  | f + 1 =>
    match getd tbl h none with
    | none => tbl.set h (some e)
    | some _ => placeFrom e cap tbl ((h + 1) % cap) f

/-- `build`: size the table at `max(2·n², 4)` and reinsert every entry by
linear probing from `hash(k) % capacity`. -/
def build (hash : ℕ → ℕ) (entries : List (ℕ × ℕ)) : State :=
  let n := entries.length
  let cap := max (2 * n * n) 4
  ⟨entries.foldl (fun tb e => placeFrom e cap tb (hash e.1 % cap) cap)
    (List.replicate cap none), n, cap⟩

/-- The `lookup` probe loop, also counting how many slots it examines.
The C++ `do … while (h != start)` visits at most `capacity` slots; the
fuel is instantiated with `capacity`, which bounds the count. -/
def lookupLoop (k cap : ℕ) (tbl : List (Option (ℕ × ℕ))) (h : ℕ) :
    ℕ → Option ℕ × ℕ
  | 0 => (none, 0)
  | f + 1 =>
    match getd tbl h none with
    | none => (none, 1)
    | some (k', v') =>
      if k' = k then (some v', 1)
      else
        let r := lookupLoop k cap tbl ((h + 1) % cap) f
        (r.1, r.2 + 1)

/-- `lookup` together with its probe count. -/
def lookupSteps (hash : ℕ → ℕ) (t : State) (k : ℕ) : Option ℕ × ℕ :=
  if t.capacity = 0 then (none, 0)
  else lookupLoop k t.capacity t.table (hash k % t.capacity) t.capacity

/-- `lookup`: value only. -/
def lookup (hash : ℕ → ℕ) (t : State) (k : ℕ) : Option ℕ :=
  (lookupSteps hash t k).1

/-- The shared probe loop of `remove`: index of the slot holding the key. -/
def findIdx (k cap : ℕ) (tbl : List (Option (ℕ × ℕ))) (h : ℕ) : ℕ → Option ℕ
  | 0 => none
  | f + 1 =>
    match getd tbl h none with
    | none => none
    | some (k', _) => if k' = k then some h else findIdx k cap tbl ((h + 1) % cap) f

/-- `remove`: reset the found slot to empty (no tombstone) and decrement
the live count. -/
def remove (hash : ℕ → ℕ) (t : State) (k : ℕ) : Bool × State :=
  if t.capacity = 0 then (false, t)
  else
    match findIdx k t.capacity t.table (hash k % t.capacity) t.capacity with
    | some h => (true, { t with table := t.table.set h none, size := t.size - 1 })
    | none => (false, t)

/-- `rebuild`: collect the occupied slots in slot order and `build` them. -/
def rebuild (hash : ℕ → ℕ) (t : State) : State :=
  build hash (t.table.filterMap id)

/-- The probe loop of `insert_or_modify`: place at the first empty slot
(reporting a new entry) or overwrite an equal-key slot (reporting an
update); `none` when the probe wrapped through a full table. -/
def iomLoop (k v cap : ℕ) (tbl : List (Option (ℕ × ℕ))) (h : ℕ) :
    ℕ → Option (List (Option (ℕ × ℕ)) × Bool)
  | 0 => none
  | f + 1 =>
    match getd tbl h none with
    | none => some (tbl.set h (some (k, v)), true)
    | some (k', _) =>
      if k' = k then some (tbl.set h (some (k', v)), false)
      else iomLoop k v cap tbl ((h + 1) % cap) f

/-- `insert_or_modify`: note that every return path yields `true`.  After
placing a new entry the bucket is rebuilt when `size > capacity / 2`;
after a wrapped probe it is rebuilt and the insert retried (that retry
recursion is bounded by fuel). -/
def insert_or_modify (hash : ℕ → ℕ) : ℕ → State → ℕ → ℕ → Bool × State
  | fuel, t, k, v =>
    if t.capacity = 0 then (true, build hash [(k, v)])
    else
      match iomLoop k v t.capacity t.table (hash k % t.capacity) t.capacity with
      | some (tbl2, true) =>
        let t2 : State := ⟨tbl2, t.size + 1, t.capacity⟩
        (true, if t2.size > t2.capacity / 2 then rebuild hash t2 else t2)
      | some (tbl2, false) => (true, { t with table := tbl2 })
      | none =>
        match fuel with
        | 0 => (true, t)
        | f + 1 => insert_or_modify hash f (rebuild hash t) k v

theorem lookupLoop_steps_le (k cap : ℕ) (tbl : List (Option (ℕ × ℕ))) :
    ∀ fuel h, (lookupLoop k cap tbl h fuel).2 ≤ fuel := by
  intro fuel
  induction fuel with
  | zero => intro h; simp [lookupLoop]
  | succ f ih =>
    intro h
    unfold lookupLoop
    split
    · simp
    · rename_i kk vv heq
      by_cases hk : kk = k
      · simp [hk]
      · rw [if_neg hk]
        show (lookupLoop k cap tbl ((h + 1) % cap) f).2 + 1 ≤ f + 1
        have := ih ((h + 1) % cap)
        omega

theorem lookupSteps_le_capacity (hash : ℕ → ℕ) (t : State) (k : ℕ) :
    (lookupSteps hash t k).2 ≤ t.capacity := by
  unfold lookupSteps
  by_cases h0 : t.capacity = 0
  · simp [h0]
  · rw [if_neg h0]
    exact lookupLoop_steps_le k t.capacity t.table t.capacity (hash k % t.capacity)

theorem build_capacity (hash : ℕ → ℕ) (entries : List (ℕ × ℕ)) :
    (build hash entries).capacity = max (2 * entries.length * entries.length) 4 := rfl

end SecondaryTable

namespace PerfectHash

/-- Top-level state: a fixed array of secondary tables plus the element
counter `size_` (`PerfectHash` in src/include/perfect_hashing.h). -/
structure State where
  buckets : List SecondaryTable.State
  bucketCount : ℕ
  size_ : ℕ
  deriving Repr, DecidableEq

/-- Constructor: `initialBuckets` default-constructed secondary tables. -/
def mk (initialBuckets : ℕ) : State :=
  ⟨List.replicate initialBuckets ⟨[], 0, 0⟩, initialBuckets, 0⟩

/-- `hasher(key) % bucketCount`. -/
def getBucketIndex (hash : ℕ → ℕ) (t : State) (k : ℕ) : ℕ :=
  hash k % t.bucketCount

/-- `insert`: route to the bucket and `++size_` whenever
`insert_or_modify` reports `true` (which it always does). -/
def insert (hash : ℕ → ℕ) (fuel : ℕ) (t : State) (k v : ℕ) : State :=
  let i := getBucketIndex hash t k
  let r := SecondaryTable.insert_or_modify hash fuel (getd t.buckets i ⟨[], 0, 0⟩) k v
  { t with buckets := t.buckets.set i r.2,
           size_ := if r.1 then t.size_ + 1 else t.size_ }

/-- `lookup`: delegate to the bucket. -/
def lookup (hash : ℕ → ℕ) (t : State) (k : ℕ) : Option ℕ :=
  SecondaryTable.lookup hash (getd t.buckets (getBucketIndex hash t k) ⟨[], 0, 0⟩) k

/-- `remove`: delegate, decrement `size_` on success. -/
def remove (hash : ℕ → ℕ) (t : State) (k : ℕ) : Bool × State :=
  let i := getBucketIndex hash t k
  let r := SecondaryTable.remove hash (getd t.buckets i ⟨[], 0, 0⟩) k
  if r.1 then (true, { t with buckets := t.buckets.set i r.2, size_ := t.size_ - 1 })
  else (false, t)

/-- `size`. -/
def size (t : State) : ℕ := t.size_

end PerfectHash

/-! ## Iceberg table (src/iceberg.h).  Key `0` is the empty-slot sentinel:
a slot is live iff its key is nonzero (level 3 stores raw entries). -/

namespace IcebergHash

/-- Table state: `capacity_blocks` blocks on each level; level 1 blocks
have `1 << SLOT_BITS = 64` slots, level 2 blocks have `LV2_SLOTS = 8`,
level 3 is one overflow list per level-1 block. -/
structure State where
  capacity_blocks : ℕ
  size : ℕ
  level1 : List (List (ℕ × ℕ))
  level2 : List (List (ℕ × ℕ))
  level3 : List (List (ℕ × ℕ))
  deriving Repr, DecidableEq

/-- Constructor. -/
def mk (init_blocks : ℕ) : State :=
  ⟨init_blocks, 0,
    List.replicate init_blocks (List.replicate 64 (0, 0)),
    List.replicate init_blocks (List.replicate 8 (0, 0)),
    List.replicate init_blocks []⟩

/-- `hash1`: `std::hash(key) % capacity_blocks`. -/
def hash1 (hash : ℕ → ℕ) (B k : ℕ) : ℕ := hash k % B

/-- `hash2`: `(std::hash(key) / 37) % capacity_blocks`. -/
def hash2 (hash : ℕ → ℕ) (B k : ℕ) : ℕ := hash k / 37 % B

/-- The level-1/level-2 block scan of `insert`: write the pair into the
first slot whose key is `0` (empty) or equal to the inserted key; the
Bool reports whether the slot was empty (`++size`). -/
def scanPlace (k v : ℕ) : List (ℕ × ℕ) → Option (List (ℕ × ℕ) × Bool)
  | [] => none
  | (k', v') :: rest =>
    if k' = 0 ∨ k' = k then some ((k, v) :: rest, k' == 0)
    else (scanPlace k v rest).map fun r => ((k', v') :: r.1, r.2)

/-- The block scan of `lookup`: first slot with an equal key. -/
def scanFind (k : ℕ) : List (ℕ × ℕ) → Option ℕ
  | [] => none
  | (k', v') :: rest => if k' = k then some v' else scanFind k rest

/-- The block scan of `remove`: zero out the key of the first slot whose
key matches (`e.key = 0`, keeping the stored value like the C++). -/
def scanZero (k : ℕ) : List (ℕ × ℕ) → Option (List (ℕ × ℕ))
  | [] => none
  | (k', v') :: rest =>
    if k' = k then some ((0, v') :: rest)
    else (scanZero k rest).map fun r => (k', v') :: r

/-- Erase the first entry with the key from a level-3 list. -/
def eraseL3 (k : ℕ) : List (ℕ × ℕ) → Option (List (ℕ × ℕ))
  | [] => none
  | (k', v') :: rest =>
    if k' = k then some rest
    else (eraseL3 k rest).map fun r => (k', v') :: r

/-- The placement part of `insert` (everything after the resize check):
level-1 block at `hash1`, else level-2 block at `hash2`, else push onto
the level-3 list at `hash1`. -/
def placeIce (hash : ℕ → ℕ) (s : State) (k v : ℕ) : State :=
  match scanPlace k v (getd s.level1 (hash1 hash s.capacity_blocks k) []) with
  | some r =>
    { s with level1 := s.level1.set (hash1 hash s.capacity_blocks k) r.1,
             size := if r.2 then s.size + 1 else s.size }
  | none =>
    match scanPlace k v (getd s.level2 (hash2 hash s.capacity_blocks k) []) with
    | some r =>
      { s with level2 := s.level2.set (hash2 hash s.capacity_blocks k) r.1,
               size := if r.2 then s.size + 1 else s.size }
    | none =>
      { s with level3 := s.level3.set (hash1 hash s.capacity_blocks k)
                 ((k, v) :: getd s.level3 (hash1 hash s.capacity_blocks k) []),
               size := s.size + 1 }

/-- The live entries of one block index, in the order `resize` walks
them: level-1 nonzero keys, level-2 nonzero keys, the level-3 list. -/
def blockContent (s : State) (j : ℕ) : List (ℕ × ℕ) :=
  (getd s.level1 j []).filter (fun e => e.1 != 0) ++
    (getd s.level2 j []).filter (fun e => e.1 != 0) ++ getd s.level3 j []

/-- All live entries, in `resize`'s reinsertion order. -/
def entriesIce (s : State) : List (ℕ × ℕ) :=
  ((List.range s.capacity_blocks).map (blockContent s)).flatten

/-- `insert`, with the resize recursion bounded by fuel.  The resize
trigger `(double)size / (capacity_blocks * (64 + 8)) >= 0.85` is
modelled by the exact comparison `20 * size ≥ 17 * (blocks * 72)`
(`0.85 = 17/20`; the double comparison agrees at every state size
reachable here). -/
def insert (hash : ℕ → ℕ) : ℕ → State → ℕ → ℕ → State
  | fuel, s, k, v =>
    let s1 :=
      if 20 * s.size ≥ 17 * (s.capacity_blocks * 72) then
        match fuel with
        | 0 => s
        | f + 1 =>
          (entriesIce s).foldl (fun acc e => insert hash f acc e.1 e.2)
            (mk (2 * s.capacity_blocks))
      else s
    placeIce hash s1 k v

/-- `lookup`: level-1 block, then level-2 block, then the level-3 list. -/
def lookup (hash : ℕ → ℕ) (s : State) (k : ℕ) : Option ℕ :=
  match scanFind k (getd s.level1 (hash1 hash s.capacity_blocks k) []) with
  | some v => some v
  | none =>
    match scanFind k (getd s.level2 (hash2 hash s.capacity_blocks k) []) with
    | some v => some v
    | none => scanFind k (getd s.level3 (hash1 hash s.capacity_blocks k) [])

/-- `remove`: zero out in level 1 or 2, or erase from level 3. -/
def remove (hash : ℕ → ℕ) (s : State) (k : ℕ) : Bool × State :=
  match scanZero k (getd s.level1 (hash1 hash s.capacity_blocks k) []) with
  | some blk =>
    (true, { s with level1 := s.level1.set (hash1 hash s.capacity_blocks k) blk,
                    size := s.size - 1 })
  | none =>
    match scanZero k (getd s.level2 (hash2 hash s.capacity_blocks k) []) with
    | some blk =>
      (true, { s with level2 := s.level2.set (hash2 hash s.capacity_blocks k) blk,
                      size := s.size - 1 })
    | none =>
      match eraseL3 k (getd s.level3 (hash1 hash s.capacity_blocks k) []) with
      | some l =>
        (true, { s with level3 := s.level3.set (hash1 hash s.capacity_blocks k) l,
                        size := s.size - 1 })
      | none => (false, s)

/-- Number of live slots holding key `q` anywhere in the table. -/
def ckey (q : ℕ) (s : State) : ℕ :=
  (entriesIce s).countP fun e => e.1 == q

/-- Well-formedness: positive block count and level vectors of that length. -/
def WF (s : State) : Prop :=
  0 < s.capacity_blocks ∧ s.level1.length = s.capacity_blocks ∧
    s.level2.length = s.capacity_blocks ∧ s.level3.length = s.capacity_blocks

instance (s : State) : Decidable (WF s) := by unfold WF; infer_instance

end IcebergHash

namespace IcebergHash

theorem scanPlace_find (k v : ℕ) :
    ∀ blk blk2 b, scanPlace k v blk = some (blk2, b) → scanFind k blk2 = some v := by
  intro blk
  induction blk with
  | nil => intro blk2 b h; simp [scanPlace] at h
  | cons hd tl ih =>
    intro blk2 b h
    obtain ⟨k', v'⟩ := hd
    by_cases hc : k' = 0 ∨ k' = k
    · rw [scanPlace, if_pos hc] at h
      simp only [Option.some.injEq, Prod.mk.injEq] at h
      rw [← h.1]
      simp [scanFind]
    · rw [scanPlace, if_neg hc] at h
      cases hrec : scanPlace k v tl with
      | none => rw [hrec] at h; simp at h
      | some r =>
        rw [hrec] at h
        simp only [Option.map_some', Option.some.injEq, Prod.mk.injEq] at h
        have hk : ¬k' = k := fun he => hc (Or.inr he)
        rw [← h.1]
        simp only [scanFind, if_neg hk]
        exact ih r.1 r.2 (by rw [hrec])

theorem scanPlace_none (k v : ℕ) :
    ∀ blk, scanPlace k v blk = none → scanFind k blk = none := by
  intro blk
  induction blk with
  | nil => intro _; rfl
  | cons hd tl ih =>
    intro h
    obtain ⟨k', v'⟩ := hd
    by_cases hc : k' = 0 ∨ k' = k
    · rw [scanPlace, if_pos hc] at h; simp at h
    · rw [scanPlace, if_neg hc] at h
      have hk : ¬k' = k := fun he => hc (Or.inr he)
      simp only [scanFind, if_neg hk]
      exact ih (Option.map_eq_none.mp h)

theorem placeIce_lookup (hash : ℕ → ℕ) (s : State) (k v : ℕ) (hwf : WF s) :
    lookup hash (placeIce hash s k v) k = some v := by
  obtain ⟨hB, h1, h2, h3⟩ := hwf
  have hi1 : hash1 hash s.capacity_blocks k < s.level1.length := by
    rw [h1]; exact Nat.mod_lt _ hB
  have hi2 : hash2 hash s.capacity_blocks k < s.level2.length := by
    rw [h2]; exact Nat.mod_lt _ hB
  have hi3 : hash1 hash s.capacity_blocks k < s.level3.length := by
    rw [h3]; exact Nat.mod_lt _ hB
  unfold placeIce
  cases hp1 : scanPlace k v (getd s.level1 (hash1 hash s.capacity_blocks k) []) with
  | some r =>
    simp only [lookup]
    rw [getd_set_self _ _ _ _ hi1, scanPlace_find k v _ r.1 r.2 (by rw [hp1])]
  | none =>
    cases hp2 : scanPlace k v (getd s.level2 (hash2 hash s.capacity_blocks k) []) with
    | some r =>
      simp only [lookup]
      rw [scanPlace_none k v _ hp1, getd_set_self _ _ _ _ hi2,
        scanPlace_find k v _ r.1 r.2 (by rw [hp2])]
    | none =>
      simp only [lookup]
      rw [scanPlace_none k v _ hp1, scanPlace_none k v _ hp2,
        getd_set_self _ _ _ _ hi3]
      simp [scanFind]

theorem placeIce_WF (hash : ℕ → ℕ) (s : State) (k v : ℕ) (hwf : WF s) :
    WF (placeIce hash s k v) := by
  obtain ⟨hB, h1, h2, h3⟩ := hwf
  unfold placeIce
  cases scanPlace k v (getd s.level1 (hash1 hash s.capacity_blocks k) []) with
  | some r => exact ⟨hB, by simpa using h1, h2, h3⟩
  | none =>
    cases scanPlace k v (getd s.level2 (hash2 hash s.capacity_blocks k) []) with
    | some r => exact ⟨hB, h1, by simpa using h2, h3⟩
    | none => exact ⟨hB, h1, h2, by simpa using h3⟩

theorem mk_WF (B : ℕ) (hB : 0 < B) : WF (mk B) :=
  ⟨hB, by simp [mk], by simp [mk], by simp [mk]⟩

theorem insert_WF (hash : ℕ → ℕ) :
    ∀ fuel s k v, WF s → WF (insert hash fuel s k v) := by
  intro fuel
  induction fuel with
  | zero =>
    intro s k v h
    unfold insert
    by_cases hc : 20 * s.size ≥ 17 * (s.capacity_blocks * 72)
    · rw [if_pos hc]; exact placeIce_WF hash s k v h
    · rw [if_neg hc]; exact placeIce_WF hash s k v h
  | succ f ih =>
    intro s k v h
    unfold insert
    by_cases hc : 20 * s.size ≥ 17 * (s.capacity_blocks * 72)
    · rw [if_pos hc]
      refine placeIce_WF hash _ k v ?_
      have hfold : ∀ (es : List (ℕ × ℕ)) (acc : State), WF acc →
          WF (es.foldl (fun a e => insert hash f a e.1 e.2) acc) := by
        intro es
        induction es with
        | nil => intro acc ha; exact ha
        | cons e rest ihe =>
          intro acc ha
          exact ihe _ (ih acc e.1 e.2 ha)
      exact hfold _ _ (mk_WF _ (by obtain ⟨hB, _, _, _⟩ := h; omega))
    · rw [if_neg hc]
      exact placeIce_WF hash s k v h

theorem insert_lookup (hash : ℕ → ℕ) (fuel : ℕ) (s : State) (k v : ℕ) (hwf : WF s) :
    lookup hash (insert hash fuel s k v) k = some v := by
  cases fuel with
  | zero =>
    unfold insert
    by_cases hc : 20 * s.size ≥ 17 * (s.capacity_blocks * 72)
    · rw [if_pos hc]; exact placeIce_lookup hash s k v hwf
    · rw [if_neg hc]; exact placeIce_lookup hash s k v hwf
  | succ f =>
    unfold insert
    by_cases hc : 20 * s.size ≥ 17 * (s.capacity_blocks * 72)
    · rw [if_pos hc]
      refine placeIce_lookup hash _ k v ?_
      have hfold : ∀ (es : List (ℕ × ℕ)) (acc : State), WF acc →
          WF (es.foldl (fun a e => insert hash f a e.1 e.2) acc) := by
        intro es
        induction es with
        | nil => intro acc ha; exact ha
        | cons e rest ihe =>
          intro acc ha
          exact ihe _ (insert_WF hash f acc e.1 e.2 ha)
      exact hfold _ _ (mk_WF _ (by obtain ⟨hB, _, _, _⟩ := hwf; omega))
    · rw [if_neg hc]
      exact placeIce_lookup hash s k v hwf

end IcebergHash

namespace IcebergHash

theorem countP_set_block (p : ℕ × ℕ → Bool) :
    ∀ (B : ℕ) (F G : ℕ → List (ℕ × ℕ)) (i : ℕ), i < B → (∀ j, j ≠ i → F j = G j) →
      ((List.range B).map F).flatten.countP p + (G i).countP p =
        ((List.range B).map G).flatten.countP p + (F i).countP p := by
  intro B
  induction B with
  | zero => intro F G i hi; omega
  | succ B ih =>
    intro F G i hi hagree
    simp only [List.range_succ, List.map_append, List.map_cons, List.map_nil,
      List.flatten_append, List.flatten_cons, List.flatten_nil, List.append_nil,
      List.countP_append]
    by_cases hiB : i = B
    · subst hiB
      have hmaps : (List.range i).map F = (List.range i).map G := by
        refine List.map_congr_left ?_
        intro a ha
        refine hagree a fun he => ?_
        rw [he] at ha
        exact absurd (List.mem_range.mp ha) (lt_irrefl i)
      rw [hmaps]
      omega
    · have hFB : F B = G B := hagree B (fun h => hiB h.symm)
      have hrec := ih F G i (by omega) hagree
      rw [hFB]
      omega

theorem scanPlace_filter_countP (k v q : ℕ) :
    ∀ blk blk2 b, k ≠ 0 → (∀ e ∈ blk, e.1 ≠ k) →
      scanPlace k v blk = some (blk2, b) →
      (blk2.filter fun e => e.1 != 0).countP (fun e => e.1 == q) =
        (blk.filter fun e => e.1 != 0).countP (fun e => e.1 == q) +
          (if q = k then 1 else 0) := by
  intro blk
  induction blk with
  | nil => intro blk2 b _ _ h; simp [scanPlace] at h
  | cons hd tl ih =>
    intro blk2 b hk0 hnok h
    obtain ⟨k', v'⟩ := hd
    have hk'ne : k' ≠ k := by
      have := hnok (k', v') (by simp)
      simpa using this
    by_cases hc : k' = 0 ∨ k' = k
    · have hk'0 : k' = 0 := by
        cases hc with
        | inl h0 => exact h0
        | inr hkk => exact absurd hkk hk'ne
      rw [scanPlace, if_pos hc] at h
      simp only [Option.some.injEq, Prod.mk.injEq] at h
      rw [← h.1]
      subst hk'0
      have hkne0 : (k != 0) = true := by simpa using hk0
      simp only [List.filter_cons, hkne0, bne_self_eq_false, if_true, if_false,
        Bool.false_eq_true, List.countP_cons]
      by_cases hq : q = k
      · subst hq; simp
      · have : (k == q) = false := by
          simp only [beq_eq_false_iff_ne, ne_eq]
          exact fun he => hq he.symm
        simp [this, hq]
    · rw [scanPlace, if_neg hc] at h
      cases hrec : scanPlace k v tl with
      | none => rw [hrec] at h; simp at h
      | some r =>
        rw [hrec] at h
        simp only [Option.map_some', Option.some.injEq, Prod.mk.injEq] at h
        rw [← h.1]
        have htl := ih r.1 r.2 hk0 (fun e he => hnok e (by simp [he])) (by rw [hrec])
        by_cases hk'z : k' = 0
        · simp only [List.filter_cons, hk'z, bne_self_eq_false, Bool.false_eq_true,
            if_false]
          exact htl
        · have : (k' != 0) = true := by simpa using hk'z
          simp only [List.filter_cons, this, if_true, List.countP_cons]
          omega

theorem scanZero_filter_countP_le (k q : ℕ) :
    ∀ blk blk2, scanZero k blk = some blk2 →
      (blk2.filter fun e => e.1 != 0).countP (fun e => e.1 == q) ≤
        (blk.filter fun e => e.1 != 0).countP (fun e => e.1 == q) := by
  intro blk
  induction blk with
  | nil => intro blk2 h; simp [scanZero] at h
  | cons hd tl ih =>
    intro blk2 h
    obtain ⟨k', v'⟩ := hd
    by_cases hc : k' = k
    · rw [scanZero, if_pos hc] at h
      simp only [Option.some.injEq] at h
      rw [← h]
      simp only [List.filter_cons, bne_self_eq_false, Bool.false_eq_true, if_false]
      by_cases hk'z : k' = 0
      · simp [hk'z]
      · have : (k' != 0) = true := by simpa using hk'z
        simp only [this, if_true, List.countP_cons]
        omega
    · rw [scanZero, if_neg hc] at h
      cases hrec : scanZero k tl with
      | none => rw [hrec] at h; simp at h
      | some r =>
        rw [hrec] at h
        simp only [Option.map_some', Option.some.injEq] at h
        rw [← h]
        have := ih r (by rw [hrec])
        by_cases hk'z : k' = 0
        · simpa [List.filter_cons, hk'z] using this
        · have hkb : (k' != 0) = true := by simpa using hk'z
          simp only [List.filter_cons, hkb, if_true, List.countP_cons]
          omega

theorem eraseL3_countP_le (k : ℕ) (p : ℕ × ℕ → Bool) :
    ∀ l l2, eraseL3 k l = some l2 → l2.countP p ≤ l.countP p := by
  intro l
  induction l with
  | nil => intro l2 h; simp [eraseL3] at h
  | cons hd tl ih =>
    intro l2 h
    obtain ⟨k', v'⟩ := hd
    by_cases hc : k' = k
    · rw [eraseL3, if_pos hc] at h
      simp only [Option.some.injEq] at h
      rw [← h, List.countP_cons]
      omega
    · rw [eraseL3, if_neg hc] at h
      cases hrec : eraseL3 k tl with
      | none => rw [hrec] at h; simp at h
      | some r =>
        rw [hrec] at h
        simp only [Option.map_some', Option.some.injEq] at h
        rw [← h]
        have := ih r (by rw [hrec])
        simp only [List.countP_cons]
        omega

end IcebergHash

namespace IcebergHash

theorem mem_entriesIce (s : State) (j : ℕ) (hj : j < s.capacity_blocks) :
    ∀ e ∈ blockContent s j, e ∈ entriesIce s := by
  intro e he
  unfold entriesIce
  rw [List.mem_flatten]
  exact ⟨blockContent s j, List.mem_map_of_mem _ (List.mem_range.mpr hj), he⟩

theorem fresh_level1 (s : State) (k j : ℕ) (hj : j < s.capacity_blocks) (hk0 : k ≠ 0)
    (hfresh : ckey k s = 0) : ∀ e ∈ getd s.level1 j [], e.1 ≠ k := by
  intro e he heq
  have hcount := List.countP_eq_zero.mp hfresh
  refine hcount e (mem_entriesIce s j hj e ?_) (by simp [heq])
  unfold blockContent
  refine List.mem_append_left _ (List.mem_append_left _ ?_)
  exact List.mem_filter.mpr ⟨he, by simp [heq, hk0]⟩

theorem fresh_level2 (s : State) (k j : ℕ) (hj : j < s.capacity_blocks) (hk0 : k ≠ 0)
    (hfresh : ckey k s = 0) : ∀ e ∈ getd s.level2 j [], e.1 ≠ k := by
  intro e he heq
  have hcount := List.countP_eq_zero.mp hfresh
  refine hcount e (mem_entriesIce s j hj e ?_) (by simp [heq])
  unfold blockContent
  refine List.mem_append_left _ (List.mem_append_right _ ?_)
  exact List.mem_filter.mpr ⟨he, by simp [heq, hk0]⟩

theorem placeIce_ckey (hash : ℕ → ℕ) (s : State) (k v q : ℕ) (hwf : WF s) (hk0 : k ≠ 0)
    (hfresh : ckey k s = 0) :
    ckey q (placeIce hash s k v) = ckey q s + (if q = k then 1 else 0) := by
  obtain ⟨hB, h1, h2, h3⟩ := hwf
  have hi1B : hash1 hash s.capacity_blocks k < s.capacity_blocks := Nat.mod_lt _ hB
  have hi2B : hash2 hash s.capacity_blocks k < s.capacity_blocks := Nat.mod_lt _ hB
  unfold placeIce
  cases hp1 : scanPlace k v (getd s.level1 (hash1 hash s.capacity_blocks k) []) with
  | some r =>
    set s2 : State :=
      { s with level1 := s.level1.set (hash1 hash s.capacity_blocks k) r.1,
               size := if r.2 then s.size + 1 else s.size } with hs2
    have hagree : ∀ j, j ≠ hash1 hash s.capacity_blocks k →
        blockContent s2 j = blockContent s j := by
      intro j hj
      unfold blockContent
      rw [hs2]
      rw [getd_set_ne _ _ _ _ _ hj]
    have hkey := countP_set_block (fun e => e.1 == q) s.capacity_blocks
      (blockContent s2) (blockContent s) (hash1 hash s.capacity_blocks k) hi1B hagree
    have hF : blockContent s2 (hash1 hash s.capacity_blocks k) =
        r.1.filter (fun e => e.1 != 0) ++
          (getd s.level2 (hash1 hash s.capacity_blocks k) []).filter (fun e => e.1 != 0) ++
          getd s.level3 (hash1 hash s.capacity_blocks k) [] := by
      unfold blockContent
      rw [hs2]
      rw [getd_set_self _ _ _ _ (by rw [h1]; exact hi1B)]
    have hscan := scanPlace_filter_countP k v q
      (getd s.level1 (hash1 hash s.capacity_blocks k) []) r.1 r.2 hk0
      (fresh_level1 s k _ hi1B hk0 hfresh) (by rw [hp1])
    have hGsplit : (blockContent s (hash1 hash s.capacity_blocks k)).countP
        (fun e => e.1 == q) =
        ((getd s.level1 (hash1 hash s.capacity_blocks k) []).filter
          (fun e => e.1 != 0)).countP (fun e => e.1 == q) +
        ((getd s.level2 (hash1 hash s.capacity_blocks k) []).filter
          (fun e => e.1 != 0)).countP (fun e => e.1 == q) +
        (getd s.level3 (hash1 hash s.capacity_blocks k) []).countP (fun e => e.1 == q) := by
      unfold blockContent
      rw [List.countP_append, List.countP_append]
    have hFsplit : (blockContent s2 (hash1 hash s.capacity_blocks k)).countP
        (fun e => e.1 == q) =
        (r.1.filter (fun e => e.1 != 0)).countP (fun e => e.1 == q) +
        ((getd s.level2 (hash1 hash s.capacity_blocks k) []).filter
          (fun e => e.1 != 0)).countP (fun e => e.1 == q) +
        (getd s.level3 (hash1 hash s.capacity_blocks k) []).countP (fun e => e.1 == q) := by
      rw [hF, List.countP_append, List.countP_append]
    show ckey q s2 = ckey q s + (if q = k then 1 else 0)
    unfold ckey entriesIce
    have hcap : s2.capacity_blocks = s.capacity_blocks := rfl
    rw [hcap]
    omega
  | none =>
    cases hp2 : scanPlace k v (getd s.level2 (hash2 hash s.capacity_blocks k) []) with
    | some r =>
      set s2 : State :=
        { s with level2 := s.level2.set (hash2 hash s.capacity_blocks k) r.1,
                 size := if r.2 then s.size + 1 else s.size } with hs2
      have hagree : ∀ j, j ≠ hash2 hash s.capacity_blocks k →
          blockContent s2 j = blockContent s j := by
        intro j hj
        unfold blockContent
        rw [hs2]
        rw [getd_set_ne _ _ _ _ _ hj]
      have hkey := countP_set_block (fun e => e.1 == q) s.capacity_blocks
        (blockContent s2) (blockContent s) (hash2 hash s.capacity_blocks k) hi2B hagree
      have hF : blockContent s2 (hash2 hash s.capacity_blocks k) =
          (getd s.level1 (hash2 hash s.capacity_blocks k) []).filter (fun e => e.1 != 0) ++
            r.1.filter (fun e => e.1 != 0) ++
            getd s.level3 (hash2 hash s.capacity_blocks k) [] := by
        unfold blockContent
        rw [hs2]
        rw [getd_set_self _ _ _ _ (by rw [h2]; exact hi2B)]
      have hscan := scanPlace_filter_countP k v q
        (getd s.level2 (hash2 hash s.capacity_blocks k) []) r.1 r.2 hk0
        (fresh_level2 s k _ hi2B hk0 hfresh) (by rw [hp2])
      have hGsplit : (blockContent s (hash2 hash s.capacity_blocks k)).countP
          (fun e => e.1 == q) =
          ((getd s.level1 (hash2 hash s.capacity_blocks k) []).filter
            (fun e => e.1 != 0)).countP (fun e => e.1 == q) +
          ((getd s.level2 (hash2 hash s.capacity_blocks k) []).filter
            (fun e => e.1 != 0)).countP (fun e => e.1 == q) +
          (getd s.level3 (hash2 hash s.capacity_blocks k) []).countP (fun e => e.1 == q) := by
        unfold blockContent
        rw [List.countP_append, List.countP_append]
      have hFsplit : (blockContent s2 (hash2 hash s.capacity_blocks k)).countP
          (fun e => e.1 == q) =
          ((getd s.level1 (hash2 hash s.capacity_blocks k) []).filter
            (fun e => e.1 != 0)).countP (fun e => e.1 == q) +
          (r.1.filter (fun e => e.1 != 0)).countP (fun e => e.1 == q) +
          (getd s.level3 (hash2 hash s.capacity_blocks k) []).countP (fun e => e.1 == q) := by
        rw [hF, List.countP_append, List.countP_append]
      show ckey q s2 = ckey q s + (if q = k then 1 else 0)
      unfold ckey entriesIce
      have hcap : s2.capacity_blocks = s.capacity_blocks := rfl
      rw [hcap]
      omega
    | none =>
      set s2 : State :=
        { s with level3 := s.level3.set (hash1 hash s.capacity_blocks k)
                   ((k, v) :: getd s.level3 (hash1 hash s.capacity_blocks k) []),
                 size := s.size + 1 } with hs2
      have hagree : ∀ j, j ≠ hash1 hash s.capacity_blocks k →
          blockContent s2 j = blockContent s j := by
        intro j hj
        unfold blockContent
        rw [hs2]
        rw [getd_set_ne _ _ _ _ _ hj]
      have hkey := countP_set_block (fun e => e.1 == q) s.capacity_blocks
        (blockContent s2) (blockContent s) (hash1 hash s.capacity_blocks k) hi1B hagree
      have hF : blockContent s2 (hash1 hash s.capacity_blocks k) =
          (getd s.level1 (hash1 hash s.capacity_blocks k) []).filter (fun e => e.1 != 0) ++
            (getd s.level2 (hash1 hash s.capacity_blocks k) []).filter (fun e => e.1 != 0) ++
            ((k, v) :: getd s.level3 (hash1 hash s.capacity_blocks k) []) := by
        unfold blockContent
        rw [hs2]
        rw [getd_set_self _ _ _ _ (by rw [h3]; exact hi1B)]
      have hcons : (((k, v) : ℕ × ℕ) ::
          getd s.level3 (hash1 hash s.capacity_blocks k) []).countP (fun e => e.1 == q) =
          (getd s.level3 (hash1 hash s.capacity_blocks k) []).countP (fun e => e.1 == q) +
            (if q = k then 1 else 0) := by
        rw [List.countP_cons]
        by_cases hq : q = k
        · subst hq; simp
        · have hne : ((k, v).1 == q) = false := by
            simp only [beq_eq_false_iff_ne, ne_eq]
            exact fun he => hq he.symm
          simp [hne, hq]
      have hGsplit : (blockContent s (hash1 hash s.capacity_blocks k)).countP
          (fun e => e.1 == q) =
          ((getd s.level1 (hash1 hash s.capacity_blocks k) []).filter
            (fun e => e.1 != 0)).countP (fun e => e.1 == q) +
          ((getd s.level2 (hash1 hash s.capacity_blocks k) []).filter
            (fun e => e.1 != 0)).countP (fun e => e.1 == q) +
          (getd s.level3 (hash1 hash s.capacity_blocks k) []).countP (fun e => e.1 == q) := by
        unfold blockContent
        rw [List.countP_append, List.countP_append]
      have hFsplit : (blockContent s2 (hash1 hash s.capacity_blocks k)).countP
          (fun e => e.1 == q) =
          ((getd s.level1 (hash1 hash s.capacity_blocks k) []).filter
            (fun e => e.1 != 0)).countP (fun e => e.1 == q) +
          ((getd s.level2 (hash1 hash s.capacity_blocks k) []).filter
            (fun e => e.1 != 0)).countP (fun e => e.1 == q) +
          (((k, v) : ℕ × ℕ) ::
            getd s.level3 (hash1 hash s.capacity_blocks k) []).countP (fun e => e.1 == q) := by
        rw [hF, List.countP_append, List.countP_append]
      show ckey q s2 = ckey q s + (if q = k then 1 else 0)
      unfold ckey entriesIce
      have hcap : s2.capacity_blocks = s.capacity_blocks := rfl
      rw [hcap]
      omega

end IcebergHash

namespace IcebergHash

theorem remove_ckey_le (hash : ℕ → ℕ) (s : State) (k q : ℕ) (hwf : WF s) :
    ckey q (remove hash s k).2 ≤ ckey q s := by
  obtain ⟨hB, h1, h2, h3⟩ := hwf
  have hi1B : hash1 hash s.capacity_blocks k < s.capacity_blocks := Nat.mod_lt _ hB
  have hi2B : hash2 hash s.capacity_blocks k < s.capacity_blocks := Nat.mod_lt _ hB
  unfold remove
  cases hz1 : scanZero k (getd s.level1 (hash1 hash s.capacity_blocks k) []) with
  | some blk =>
    set s2 : State :=
      { s with level1 := s.level1.set (hash1 hash s.capacity_blocks k) blk,
               size := s.size - 1 } with hs2
    have hagree : ∀ j, j ≠ hash1 hash s.capacity_blocks k →
        blockContent s2 j = blockContent s j := by
      intro j hj
      unfold blockContent
      rw [hs2, getd_set_ne _ _ _ _ _ hj]
    have hkey := countP_set_block (fun e => e.1 == q) s.capacity_blocks
      (blockContent s2) (blockContent s) (hash1 hash s.capacity_blocks k) hi1B hagree
    have hF : blockContent s2 (hash1 hash s.capacity_blocks k) =
        blk.filter (fun e => e.1 != 0) ++
          (getd s.level2 (hash1 hash s.capacity_blocks k) []).filter (fun e => e.1 != 0) ++
          getd s.level3 (hash1 hash s.capacity_blocks k) [] := by
      unfold blockContent
      rw [hs2, getd_set_self _ _ _ _ (by rw [h1]; exact hi1B)]
    have hle := scanZero_filter_countP_le k q
      (getd s.level1 (hash1 hash s.capacity_blocks k) []) blk hz1
    have hGsplit : (blockContent s (hash1 hash s.capacity_blocks k)).countP
        (fun e => e.1 == q) =
        ((getd s.level1 (hash1 hash s.capacity_blocks k) []).filter
          (fun e => e.1 != 0)).countP (fun e => e.1 == q) +
        ((getd s.level2 (hash1 hash s.capacity_blocks k) []).filter
          (fun e => e.1 != 0)).countP (fun e => e.1 == q) +
        (getd s.level3 (hash1 hash s.capacity_blocks k) []).countP (fun e => e.1 == q) := by
      unfold blockContent
      rw [List.countP_append, List.countP_append]
    have hFsplit : (blockContent s2 (hash1 hash s.capacity_blocks k)).countP
        (fun e => e.1 == q) =
        (blk.filter (fun e => e.1 != 0)).countP (fun e => e.1 == q) +
        ((getd s.level2 (hash1 hash s.capacity_blocks k) []).filter
          (fun e => e.1 != 0)).countP (fun e => e.1 == q) +
        (getd s.level3 (hash1 hash s.capacity_blocks k) []).countP (fun e => e.1 == q) := by
      rw [hF, List.countP_append, List.countP_append]
    show ckey q s2 ≤ ckey q s
    unfold ckey entriesIce
    have hcap : s2.capacity_blocks = s.capacity_blocks := rfl
    rw [hcap]
    omega
  | none =>
    cases hz2 : scanZero k (getd s.level2 (hash2 hash s.capacity_blocks k) []) with
    | some blk =>
      set s2 : State :=
        { s with level2 := s.level2.set (hash2 hash s.capacity_blocks k) blk,
                 size := s.size - 1 } with hs2
      have hagree : ∀ j, j ≠ hash2 hash s.capacity_blocks k →
          blockContent s2 j = blockContent s j := by
        intro j hj
        unfold blockContent
        rw [hs2, getd_set_ne _ _ _ _ _ hj]
      have hkey := countP_set_block (fun e => e.1 == q) s.capacity_blocks
        (blockContent s2) (blockContent s) (hash2 hash s.capacity_blocks k) hi2B hagree
      have hF : blockContent s2 (hash2 hash s.capacity_blocks k) =
          (getd s.level1 (hash2 hash s.capacity_blocks k) []).filter (fun e => e.1 != 0) ++
            blk.filter (fun e => e.1 != 0) ++
            getd s.level3 (hash2 hash s.capacity_blocks k) [] := by
        unfold blockContent
        rw [hs2, getd_set_self _ _ _ _ (by rw [h2]; exact hi2B)]
      have hle := scanZero_filter_countP_le k q
        (getd s.level2 (hash2 hash s.capacity_blocks k) []) blk hz2
      have hGsplit : (blockContent s (hash2 hash s.capacity_blocks k)).countP
          (fun e => e.1 == q) =
          ((getd s.level1 (hash2 hash s.capacity_blocks k) []).filter
            (fun e => e.1 != 0)).countP (fun e => e.1 == q) +
          ((getd s.level2 (hash2 hash s.capacity_blocks k) []).filter
            (fun e => e.1 != 0)).countP (fun e => e.1 == q) +
          (getd s.level3 (hash2 hash s.capacity_blocks k) []).countP (fun e => e.1 == q) := by
        unfold blockContent
        rw [List.countP_append, List.countP_append]
      have hFsplit : (blockContent s2 (hash2 hash s.capacity_blocks k)).countP
          (fun e => e.1 == q) =
          ((getd s.level1 (hash2 hash s.capacity_blocks k) []).filter
            (fun e => e.1 != 0)).countP (fun e => e.1 == q) +
          (blk.filter (fun e => e.1 != 0)).countP (fun e => e.1 == q) +
          (getd s.level3 (hash2 hash s.capacity_blocks k) []).countP (fun e => e.1 == q) := by
        rw [hF, List.countP_append, List.countP_append]
      show ckey q s2 ≤ ckey q s
      unfold ckey entriesIce
      have hcap : s2.capacity_blocks = s.capacity_blocks := rfl
      rw [hcap]
      omega
    | none =>
      cases he3 : eraseL3 k (getd s.level3 (hash1 hash s.capacity_blocks k) []) with
      | some l =>
        set s2 : State :=
          { s with level3 := s.level3.set (hash1 hash s.capacity_blocks k) l,
                   size := s.size - 1 } with hs2
        have hagree : ∀ j, j ≠ hash1 hash s.capacity_blocks k →
            blockContent s2 j = blockContent s j := by
          intro j hj
          unfold blockContent
          rw [hs2, getd_set_ne _ _ _ _ _ hj]
        have hkey := countP_set_block (fun e => e.1 == q) s.capacity_blocks
          (blockContent s2) (blockContent s) (hash1 hash s.capacity_blocks k) hi1B hagree
        have hF : blockContent s2 (hash1 hash s.capacity_blocks k) =
            (getd s.level1 (hash1 hash s.capacity_blocks k) []).filter (fun e => e.1 != 0) ++
              (getd s.level2 (hash1 hash s.capacity_blocks k) []).filter (fun e => e.1 != 0) ++
              l := by
          unfold blockContent
          rw [hs2, getd_set_self _ _ _ _ (by rw [h3]; exact hi1B)]
        have hle := eraseL3_countP_le k (fun e => e.1 == q)
          (getd s.level3 (hash1 hash s.capacity_blocks k) []) l he3
        have hGsplit : (blockContent s (hash1 hash s.capacity_blocks k)).countP
            (fun e => e.1 == q) =
            ((getd s.level1 (hash1 hash s.capacity_blocks k) []).filter
              (fun e => e.1 != 0)).countP (fun e => e.1 == q) +
            ((getd s.level2 (hash1 hash s.capacity_blocks k) []).filter
              (fun e => e.1 != 0)).countP (fun e => e.1 == q) +
            (getd s.level3 (hash1 hash s.capacity_blocks k) []).countP (fun e => e.1 == q) := by
          unfold blockContent
          rw [List.countP_append, List.countP_append]
        have hFsplit : (blockContent s2 (hash1 hash s.capacity_blocks k)).countP
            (fun e => e.1 == q) =
            ((getd s.level1 (hash1 hash s.capacity_blocks k) []).filter
              (fun e => e.1 != 0)).countP (fun e => e.1 == q) +
            ((getd s.level2 (hash1 hash s.capacity_blocks k) []).filter
              (fun e => e.1 != 0)).countP (fun e => e.1 == q) +
            l.countP (fun e => e.1 == q) := by
          rw [hF, List.countP_append, List.countP_append]
        show ckey q s2 ≤ ckey q s
        unfold ckey entriesIce
        have hcap : s2.capacity_blocks = s.capacity_blocks := rfl
        rw [hcap]
        omega
      | none => exact le_refl _

end IcebergHash

namespace IcebergHash

theorem entriesIce_mk (n : ℕ) : entriesIce (mk n) = [] := by
  unfold entriesIce
  rw [List.flatten_eq_nil_iff]
  intro l hl
  obtain ⟨j, hj, hbl⟩ := List.mem_map.mp hl
  have hjn : j < n := List.mem_range.mp hj
  rw [← hbl]
  unfold blockContent mk
  rw [getd_replicate _ _ _ _ hjn, getd_replicate _ _ _ _ hjn, getd_replicate _ _ _ _ hjn]
  have hf1 : (List.replicate 64 ((0 : ℕ), (0 : ℕ))).filter (fun e => e.1 != 0) = [] := by
    rw [List.filter_eq_nil_iff]
    intro a ha
    rw [List.eq_of_mem_replicate ha]
    simp
  have hf2 : (List.replicate 8 ((0 : ℕ), (0 : ℕ))).filter (fun e => e.1 != 0) = [] := by
    rw [List.filter_eq_nil_iff]
    intro a ha
    rw [List.eq_of_mem_replicate ha]
    simp
  rw [hf1, hf2]
  rfl

theorem ckey_mk (n q : ℕ) : ckey q (mk n) = 0 := by
  unfold ckey
  rw [entriesIce_mk]
  rfl

theorem insert_ckey (hash : ℕ → ℕ) :
    ∀ fuel s k v, WF s → (∀ p, ckey p s ≤ 1) → ckey 0 s = 0 → ckey k s = 0 → k ≠ 0 →
      ∀ q, ckey q (insert hash fuel s k v) = ckey q s + (if q = k then 1 else 0) := by
  intro fuel
  induction fuel with
  | zero =>
    intro s k v hwf hone h0 hk hk0 q
    unfold insert
    by_cases hc : 20 * s.size ≥ 17 * (s.capacity_blocks * 72)
    · rw [if_pos hc]; exact placeIce_ckey hash s k v q hwf hk0 hk
    · rw [if_neg hc]; exact placeIce_ckey hash s k v q hwf hk0 hk
  | succ f ih =>
    intro s k v hwf hone h0 hk hk0 q
    unfold insert
    by_cases hc : 20 * s.size ≥ 17 * (s.capacity_blocks * 72)
    · rw [if_pos hc]
      have hfold : ∀ (es : List (ℕ × ℕ)) (acc : State), WF acc →
          (∀ p, ckey p acc + es.countP (fun e => e.1 == p) ≤ 1) →
          ckey 0 acc + es.countP (fun e => e.1 == 0) = 0 →
          (∀ p, ckey p (es.foldl (fun a e => insert hash f a e.1 e.2) acc) =
            ckey p acc + es.countP (fun e => e.1 == p)) ∧
          WF (es.foldl (fun a e => insert hash f a e.1 e.2) acc) := by
        intro es
        induction es with
        | nil =>
          intro acc ha _ _
          exact ⟨fun p => by simp, ha⟩
        | cons e rest ihe =>
          intro acc hacc hbound hzero
          rw [List.countP_cons] at hzero
          have he0 : e.1 ≠ 0 := by
            intro hz
            rw [show (e.1 == (0 : ℕ)) = true by simp [hz]] at hzero
            simp at hzero
          have hez : (e.1 == (0 : ℕ)) = false := by simp [he0]
          rw [hez] at hzero
          simp only [Bool.false_eq_true, if_false, Nat.add_zero] at hzero
          have hb_e := hbound e.1
          rw [List.countP_cons, show (e.1 == e.1) = true by simp] at hb_e
          have hefresh : ckey e.1 acc = 0 := by
            simp at hb_e
            omega
          have hstep := ih acc e.1 e.2 hacc
            (fun p => by have hb := hbound p; omega)
            (by omega) hefresh he0
          have hwf2 := insert_WF hash f acc e.1 e.2 hacc
          have hnext := ihe (insert hash f acc e.1 e.2) hwf2
            (fun p => by
              have hb := hbound p
              rw [List.countP_cons] at hb
              rw [hstep p]
              by_cases hp : p = e.1
              · subst hp
                rw [show (e.1 == e.1) = true by simp] at hb
                simp only [if_pos rfl] at hb ⊢
                omega
              · rw [show (e.1 == p) = false by
                  simp only [beq_eq_false_iff_ne, ne_eq]; exact fun he => hp he.symm] at hb
                simp only [Bool.false_eq_true, if_false, if_neg hp] at hb ⊢
                omega)
            (by
              rw [hstep 0]
              rw [if_neg (fun h : (0 : ℕ) = e.1 => he0 h.symm)]
              omega)
          refine ⟨fun p => ?_, hnext.2⟩
          rw [List.foldl_cons, hnext.1 p, hstep p, List.countP_cons]
          by_cases hp : p = e.1
          · subst hp
            rw [show (e.1 == e.1) = true by simp]
            simp only [if_pos rfl]
            omega
          · rw [show (e.1 == p) = false by
              simp only [beq_eq_false_iff_ne, ne_eq]; exact fun he => hp he.symm]
            simp only [Bool.false_eq_true, if_false, if_neg hp]
            omega
      have hB2 : 0 < 2 * s.capacity_blocks := by
        obtain ⟨hB, _, _, _⟩ := hwf
        omega
      have hres := hfold (entriesIce s) (mk (2 * s.capacity_blocks)) (mk_WF _ hB2)
        (fun p => by rw [ckey_mk]; have := hone p; unfold ckey at this; omega)
        (by rw [ckey_mk]; unfold ckey at h0; omega)
      set s1 := (entriesIce s).foldl (fun a e => insert hash f a e.1 e.2)
        (mk (2 * s.capacity_blocks)) with hs1
      have hck1 : ∀ p, ckey p s1 = ckey p s := by
        intro p
        rw [hres.1 p, ckey_mk]
        unfold ckey
        omega
      rw [placeIce_ckey hash s1 k v q hres.2 hk0 (by rw [hck1 k]; exact hk), hck1 q]
    · rw [if_neg hc]
      exact placeIce_ckey hash s k v q hwf hk0 hk

end IcebergHash

/-! ## Cuckoo table (src/include/cuckoo.h). -/

namespace CuckooHash

/-- Two slot arrays of `capacity_` entries each plus the live count.
The C++ `Entry` is an occupancy flag with junk key/value when free;
a slot is modelled as `Option (key × value)`. -/
structure State where
  capacity_ : ℕ
  size_ : ℕ
  table1 : List (Option (ℕ × ℕ))
  table2 : List (Option (ℕ × ℕ))
  deriving Repr, DecidableEq

/-- Constructor. -/
def mk (initial_capacity : ℕ) : State :=
  ⟨initial_capacity, 0, List.replicate initial_capacity none,
    List.replicate initial_capacity none⟩

/-- `hash1`: `hasher(key) % capacity_`. -/
def hash1 (hash : ℕ → ℕ) (cap k : ℕ) : ℕ := hash k % cap

/-- `hash2`: `((h >> 16) ^ h) % capacity_`. -/
def hash2 (hash : ℕ → ℕ) (cap k : ℕ) : ℕ := ((hash k >>> 16) ^^^ hash k) % cap

/-- Does this slot hold the key? -/
def holdsKey (k : ℕ) : Option (ℕ × ℕ) → Bool
  | some (k', _) => k' == k
  | none => false

/-- Value of the slot if it holds the key. -/
def slotValue (k : ℕ) : Option (ℕ × ℕ) → Option ℕ
  | some (k', v') => if k' = k then some v' else none
  | none => none

/-- The displacement loop of `insert` (`while (kicks < capacity_)`): each
iteration places the current pair into `table1[hash1]`, swapping out any
occupant, then the same against `table2[hash2]`; placing into a free slot
ends the loop.  `budget` plays the role of `capacity_ - kicks`; on
exhaustion the loop exits with the still-displaced pair (`Sum.inr`). -/
def kickLoop (hash : ℕ → ℕ) : ℕ → State → ℕ → ℕ → State ⊕ (State × ℕ × ℕ)
  | 0, s, k, v => .inr (s, k, v)
  | b + 1, s, k, v =>
    match getd s.table1 (hash1 hash s.capacity_ k) none with
    | none =>
      .inl { s with table1 := s.table1.set (hash1 hash s.capacity_ k) (some (k, v)),
                    size_ := s.size_ + 1 }
    | some (k1, v1) =>
      let s1 : State :=
        { s with table1 := s.table1.set (hash1 hash s.capacity_ k) (some (k, v)) }
      match getd s1.table2 (hash2 hash s1.capacity_ k1) none with
      | none =>
        .inl { s1 with table2 := s1.table2.set (hash2 hash s1.capacity_ k1) (some (k1, v1)),
                       size_ := s1.size_ + 1 }
      | some (k2, v2) =>
        kickLoop hash b
          { s1 with table2 := s1.table2.set (hash2 hash s1.capacity_ k1) (some (k1, v1)) }
          k2 v2

/-- Number of completed displacement iterations of `kickLoop`. -/
def kickSteps (hash : ℕ → ℕ) : ℕ → State → ℕ → ℕ → ℕ
  | 0, _, _, _ => 0
  | b + 1, s, k, v =>
    match getd s.table1 (hash1 hash s.capacity_ k) none with
    | none => 0
    | some (k1, v1) =>
      let s1 : State :=
        { s with table1 := s.table1.set (hash1 hash s.capacity_ k) (some (k, v)) }
      match getd s1.table2 (hash2 hash s1.capacity_ k1) none with
      | none => 0
      | some (k2, v2) =>
        1 + kickSteps hash b
          { s1 with table2 := s1.table2.set (hash2 hash s1.capacity_ k1) (some (k1, v1)) }
          k2 v2

/-- `insert` with the `rehash → insert` recursion bounded by fuel.  The
initial equal-key checks overwrite in place; otherwise the kick loop runs
with budget `capacity_`, and on exhaustion the table is rebuilt at double
capacity (old `table1` entries, then old `table2` entries, then the
outstanding displaced pair). -/
def insert (hash : ℕ → ℕ) : ℕ → State → ℕ → ℕ → Option State
  | fuel, s, k, v =>
    if holdsKey k (getd s.table1 (hash1 hash s.capacity_ k) none) then
      some { s with table1 := s.table1.set (hash1 hash s.capacity_ k) (some (k, v)) }
    else if holdsKey k (getd s.table2 (hash2 hash s.capacity_ k) none) then
      some { s with table2 := s.table2.set (hash2 hash s.capacity_ k) (some (k, v)) }
    else
      match kickLoop hash s.capacity_ s k v with
      | .inl s2 => some s2
      | .inr (s2, ck, cv) =>
        match fuel with
        | 0 => none
        | f + 1 =>
          ((s2.table1.filterMap id ++ s2.table2.filterMap id).foldlM
              (fun acc e => insert hash f acc e.1 e.2) (mk (2 * s2.capacity_))).bind
            fun s3 => insert hash f s3 ck cv

/-- `lookup`: check the two candidate slots only. -/
def lookup (hash : ℕ → ℕ) (s : State) (k : ℕ) : Option ℕ :=
  match slotValue k (getd s.table1 (hash1 hash s.capacity_ k) none) with
  | some v => some v
  | none => slotValue k (getd s.table2 (hash2 hash s.capacity_ k) none)

/-- `remove`: clear the candidate slot holding the key. -/
def remove (hash : ℕ → ℕ) (s : State) (k : ℕ) : Bool × State :=
  if holdsKey k (getd s.table1 (hash1 hash s.capacity_ k) none) then
    (true, { s with table1 := s.table1.set (hash1 hash s.capacity_ k) none,
                    size_ := s.size_ - 1 })
  else if holdsKey k (getd s.table2 (hash2 hash s.capacity_ k) none) then
    (true, { s with table2 := s.table2.set (hash2 hash s.capacity_ k) none,
                    size_ := s.size_ - 1 })
  else (false, s)

/-- All stored entries: occupied `table1` slots then occupied `table2`
slots (the order `rehash` walks them). -/
def occs (s : State) : List (ℕ × ℕ) :=
  s.table1.filterMap id ++ s.table2.filterMap id

/-- All stored keys. -/
def keysOf (s : State) : List ℕ := (occs s).map Prod.fst

/-- Invariant: positive matching capacities, every occupied slot sits at
its own hash position, and keys are unique. -/
def Inv (hash : ℕ → ℕ) (s : State) : Prop :=
  0 < s.capacity_ ∧ s.table1.length = s.capacity_ ∧ s.table2.length = s.capacity_ ∧
    (∀ i, i < s.capacity_ → ∀ e ∈ (getd s.table1 i none).toList,
      hash1 hash s.capacity_ e.1 = i) ∧
    (∀ i, i < s.capacity_ → ∀ e ∈ (getd s.table2 i none).toList,
      hash2 hash s.capacity_ e.1 = i) ∧
    (keysOf s).Nodup

instance (hash : ℕ → ℕ) (s : State) : Decidable (Inv hash s) := by
  unfold Inv; infer_instance

end CuckooHash

namespace CuckooHash

theorem getd_eq_some {α : Type} (l : List (Option α)) (i : ℕ) (a : α)
    (h : getd l i none = some a) : l.get? i = some (some a) := by
  unfold getd at h
  cases hg : l.get? i with
  | none => rw [hg] at h; simp at h
  | some o => rw [hg] at h; simp at h; rw [h]

theorem getd_some_mem {α : Type} (l : List (Option α)) (i : ℕ) (a : α)
    (h : getd l i none = some a) : some a ∈ l :=
  List.get?_mem (getd_eq_some l i a h)

theorem getd_some_lt {α : Type} (l : List (Option α)) (i : ℕ) (a : α)
    (h : getd l i none = some a) : i < l.length := by
  have := getd_eq_some l i a h
  exact List.get?_eq_some.mp this |>.1

theorem fm_set_none {α : Type} (l : List (Option α)) :
    ∀ i (e : α), getd l i none = none → i < l.length →
      ((l.set i (some e)).filterMap id).Perm (e :: l.filterMap id) := by
  induction l with
  | nil => intro i e _ hi; simp at hi
  | cons x xs ih =>
    intro i e hget hi
    cases i with
    | zero =>
      have hx : x = none := by
        unfold getd at hget
        simpa using hget
      subst hx
      simp [List.filterMap_cons]
    | succ j =>
      have hget' : getd xs j none = none := hget
      have hj : j < xs.length := by simpa using hi
      cases x with
      | none =>
        simpa [List.filterMap_cons] using ih j e hget' hj
      | some b =>
        simp only [List.set_cons_succ, List.filterMap_cons, id_eq]
        exact ((ih j e hget' hj).cons b).trans (List.Perm.swap e b _)

theorem fm_set_some {α : Type} (l : List (Option α)) :
    ∀ i (e a : α), getd l i none = some a →
      (((l.set i (some e)).filterMap id) ++ [a]).Perm (e :: l.filterMap id) := by
  induction l with
  | nil => intro i e a h; unfold getd at h; simp at h
  | cons x xs ih =>
    intro i e a hget
    cases i with
    | zero =>
      have hx : x = some a := by
        unfold getd at hget
        simpa using hget
      subst hx
      simp only [List.set_cons_zero, List.filterMap_cons, id_eq, List.cons_append]
      exact (List.perm_append_singleton a _).cons e
    | succ j =>
      have hget' : getd xs j none = some a := hget
      cases x with
      | none =>
        simpa [List.filterMap_cons] using ih j e a hget'
      | some b =>
        simp only [List.set_cons_succ, List.filterMap_cons, id_eq, List.cons_append]
        exact ((ih j e a hget').cons b).trans (List.Perm.swap e b _)

theorem append_rotate {α : Type} (l1 l2 : List α) (a : α) :
    ((l1 ++ l2) ++ [a]).Perm ((l1 ++ [a]) ++ l2) := by
  rw [List.append_assoc, List.append_assoc]
  exact List.Perm.append_left _ List.perm_append_comm

theorem occs_perm_set1_none (s : State) (i : ℕ) (e : ℕ × ℕ)
    (h : getd s.table1 i none = none) (hi : i < s.table1.length) (sz : ℕ) :
    (occs ⟨s.capacity_, sz, s.table1.set i (some e), s.table2⟩).Perm (e :: occs s) := by
  show ((s.table1.set i (some e)).filterMap id ++ s.table2.filterMap id).Perm
    (e :: (s.table1.filterMap id ++ s.table2.filterMap id))
  exact List.Perm.append_right _ (fm_set_none s.table1 i e h hi)

theorem occs_perm_set2_none (s : State) (i : ℕ) (e : ℕ × ℕ)
    (h : getd s.table2 i none = none) (hi : i < s.table2.length) (sz : ℕ) :
    (occs ⟨s.capacity_, sz, s.table1, s.table2.set i (some e)⟩).Perm (e :: occs s) := by
  show (s.table1.filterMap id ++ (s.table2.set i (some e)).filterMap id).Perm
    (e :: (s.table1.filterMap id ++ s.table2.filterMap id))
  exact (List.Perm.append_left _ (fm_set_none s.table2 i e h hi)).trans
    List.perm_middle

theorem occs_perm_set1_some (s : State) (i : ℕ) (e a : ℕ × ℕ)
    (h : getd s.table1 i none = some a) (sz : ℕ) :
    ((occs ⟨s.capacity_, sz, s.table1.set i (some e), s.table2⟩) ++ [a]).Perm
      (e :: occs s) := by
  show (((s.table1.set i (some e)).filterMap id ++ s.table2.filterMap id) ++ [a]).Perm
    (e :: (s.table1.filterMap id ++ s.table2.filterMap id))
  exact (append_rotate _ _ a).trans
    (List.Perm.append_right _ (fm_set_some s.table1 i e a h))

theorem occs_perm_set2_some (s : State) (i : ℕ) (e a : ℕ × ℕ)
    (h : getd s.table2 i none = some a) (sz : ℕ) :
    ((occs ⟨s.capacity_, sz, s.table1, s.table2.set i (some e)⟩) ++ [a]).Perm
      (e :: occs s) := by
  show ((s.table1.filterMap id ++ (s.table2.set i (some e)).filterMap id) ++ [a]).Perm
    (e :: (s.table1.filterMap id ++ s.table2.filterMap id))
  rw [List.append_assoc]
  exact (List.Perm.append_left _ (fm_set_some s.table2 i e a h)).trans
    List.perm_middle

end CuckooHash

namespace CuckooHash

theorem mem_occs1 (s : State) (a : ℕ × ℕ) (i : ℕ)
    (h : getd s.table1 i none = some a) : a ∈ occs s :=
  List.mem_append_left _ (List.mem_filterMap.mpr ⟨some a, getd_some_mem _ _ _ h, rfl⟩)

theorem mem_occs2 (s : State) (a : ℕ × ℕ) (i : ℕ)
    (h : getd s.table2 i none = some a) : a ∈ occs s :=
  List.mem_append_right _ (List.mem_filterMap.mpr ⟨some a, getd_some_mem _ _ _ h, rfl⟩)

theorem pos_set (hfun : ℕ → ℕ) (cap : ℕ) (t : List (Option (ℕ × ℕ))) (k : ℕ) (e : ℕ × ℕ)
    (hlen : t.length = cap) (hke : hfun e.1 % cap = hfun k % cap)
    (hpos : ∀ i, i < cap → ∀ x ∈ (getd t i none).toList, hfun x.1 % cap = i) :
    ∀ i, i < cap → ∀ x ∈ (getd (t.set (hfun k % cap) e) i none).toList,
      hfun x.1 % cap = i := by
  intro i hi x hx
  by_cases hieq : i = hfun k % cap
  · subst hieq
    rw [getd_set_self _ _ _ _ (by rw [hlen]; exact hi)] at hx
    cases hx with
    | head => exact hke
    | tail _ htl => cases htl
  · rw [getd_set_ne _ _ _ _ _ hieq] at hx
    exact hpos i hi x hx

theorem keys_perm_of_occs {s2 : State} {l : List (ℕ × ℕ)}
    (h : (occs s2).Perm l) : (keysOf s2).Perm (l.map Prod.fst) :=
  h.map Prod.fst

theorem kickLoop_spec (hash : ℕ → ℕ) : ∀ b s k v, Inv hash s → k ∉ keysOf s →
    (∀ s2, kickLoop hash b s k v = .inl s2 →
      Inv hash s2 ∧ (occs s2).Perm ((k, v) :: occs s) ∧ s2.capacity_ = s.capacity_) ∧
    (∀ s2 ck cv, kickLoop hash b s k v = .inr (s2, ck, cv) →
      Inv hash s2 ∧ ck ∉ keysOf s2 ∧ ((ck, cv) :: occs s2).Perm ((k, v) :: occs s) ∧
        s2.capacity_ = s.capacity_) := by
  intro b
  induction b with
  | zero =>
    intro s k v hInv hfresh
    constructor
    · intro s2 h; simp [kickLoop] at h
    · intro s2 ck cv h
      simp only [kickLoop, Sum.inr.injEq, Prod.mk.injEq] at h
      obtain ⟨h1, h2, h3⟩ := h
      subst h1; subst h2; subst h3
      exact ⟨hInv, hfresh, List.Perm.refl _, rfl⟩
  | succ b ih =>
    intro s k v hInv hfresh
    obtain ⟨hcap, hlen1, hlen2, hpos1, hpos2, hnodup⟩ := hInv
    have hi1 : hash1 hash s.capacity_ k < s.capacity_ := Nat.mod_lt _ hcap
    have hnodup_k : (k :: keysOf s).Nodup := List.nodup_cons.mpr ⟨hfresh, hnodup⟩
    cases hslot1 : getd s.table1 (hash1 hash s.capacity_ k) none with
    | none =>
      have hperm := occs_perm_set1_none s (hash1 hash s.capacity_ k) (k, v) hslot1
        (by rw [hlen1]; exact hi1) (s.size_ + 1)
      have hInv2 : Inv hash
          { s with table1 := s.table1.set (hash1 hash s.capacity_ k) (some (k, v)),
                   size_ := s.size_ + 1 } := by
        refine ⟨hcap, by simpa using hlen1, hlen2, ?_, hpos2, ?_⟩
        · exact pos_set hash s.capacity_ s.table1 k (k, v) hlen1 rfl hpos1
        · refine ((keys_perm_of_occs hperm).nodup_iff).mpr ?_
          rw [List.map_cons]
          exact hnodup_k
      constructor
      · intro s2 h
        unfold kickLoop at h
        rw [hslot1] at h
        simp only [Sum.inl.injEq] at h
        subst h
        exact ⟨hInv2, hperm, rfl⟩
      · intro s2 ck cv h
        unfold kickLoop at h
        rw [hslot1] at h
        simp at h
    | some e1 =>
      obtain ⟨k1, v1⟩ := e1
      have hk1mem : k1 ∈ keysOf s := by
        have := mem_occs1 s (k1, v1) _ hslot1
        exact List.mem_map_of_mem Prod.fst this
      have hk1ne : k1 ≠ k := fun he => hfresh (he ▸ hk1mem)
      set s1 : State :=
        { s with table1 := s.table1.set (hash1 hash s.capacity_ k) (some (k, v)) } with hs1
      have hperm1 : (occs s1 ++ [(k1, v1)]).Perm ((k, v) :: occs s) :=
        occs_perm_set1_some s (hash1 hash s.capacity_ k) (k, v) (k1, v1) hslot1 s.size_
      have hkeys1 : ((keysOf s1) ++ [k1]).Perm (k :: keysOf s) := by
        have := hperm1.map Prod.fst
        simpa using this
      have hnodup1_app : ((keysOf s1) ++ [k1]).Nodup :=
        (hkeys1.nodup_iff).mpr hnodup_k
      have hnodup1 : (keysOf s1).Nodup := (List.nodup_append.mp hnodup1_app).1
      have hk1fresh : k1 ∉ keysOf s1 := by
        have hd := (List.nodup_append.mp hnodup1_app).2.2
        intro hmem
        exact hd hmem (by simp)
      have hInv1 : Inv hash s1 := by
        refine ⟨hcap, by rw [hs1]; simpa using hlen1, hlen2, ?_, hpos2, hnodup1⟩
        exact pos_set hash s.capacity_ s.table1 k (k, v) hlen1 rfl hpos1
      have hi2 : hash2 hash s.capacity_ k1 < s.capacity_ := Nat.mod_lt _ hcap
      cases hslot2 : getd s1.table2 (hash2 hash s1.capacity_ k1) none with
      | none =>
        have hl2s1 : s1.table2.length = s1.capacity_ := hInv1.2.2.1
        have hperm2 := occs_perm_set2_none s1 (hash2 hash s1.capacity_ k1) (k1, v1) hslot2
          (by rw [hl2s1]; exact hi2) (s1.size_ + 1)
        have hInv2 : Inv hash
            { s1 with table2 := s1.table2.set (hash2 hash s1.capacity_ k1) (some (k1, v1)),
                      size_ := s1.size_ + 1 } := by
          obtain ⟨hc1, hl1, hl2, hp1, hp2, hn1⟩ := hInv1
          refine ⟨hc1, hl1, by simpa using hl2, hp1, ?_, ?_⟩
          · exact pos_set (fun x => (hash x >>> 16) ^^^ hash x) s1.capacity_ s1.table2
              k1 (k1, v1) hl2 rfl hp2
          · refine ((keys_perm_of_occs hperm2).nodup_iff).mpr ?_
            rw [List.map_cons]
            exact List.nodup_cons.mpr ⟨hk1fresh, hn1⟩
        constructor
        · intro s2 h
          unfold kickLoop at h
          rw [hslot1] at h
          simp only at h
          rw [hslot2] at h
          simp only [Sum.inl.injEq] at h
          subst h
          refine ⟨hInv2, ?_, rfl⟩
          exact hperm2.trans
            (((List.perm_append_singleton (k1, v1) (occs s1)).symm).trans hperm1)
        · intro s2 ck cv h
          unfold kickLoop at h
          rw [hslot1] at h
          simp only at h
          rw [hslot2] at h
          simp at h
      | some e2 =>
        obtain ⟨k2, v2⟩ := e2
        have hk2mem : k2 ∈ keysOf s1 := by
          have := mem_occs2 s1 (k2, v2) _ hslot2
          exact List.mem_map_of_mem Prod.fst this
        have hk2ne : k2 ≠ k1 := fun he => hk1fresh (he ▸ hk2mem)
        set s2 : State :=
          { s1 with table2 := s1.table2.set (hash2 hash s1.capacity_ k1) (some (k1, v1)) }
          with hs2
        have hperm2 : (occs s2 ++ [(k2, v2)]).Perm ((k1, v1) :: occs s1) :=
          occs_perm_set2_some s1 (hash2 hash s1.capacity_ k1) (k1, v1) (k2, v2) hslot2 s1.size_
        have hkeys2 : ((keysOf s2) ++ [k2]).Perm (k1 :: keysOf s1) := by
          have := hperm2.map Prod.fst
          simpa using this
        have hnodup2_app : ((keysOf s2) ++ [k2]).Nodup :=
          (hkeys2.nodup_iff).mpr (List.nodup_cons.mpr ⟨hk1fresh, hnodup1⟩)
        have hnodup2 : (keysOf s2).Nodup := (List.nodup_append.mp hnodup2_app).1
        have hk2fresh : k2 ∉ keysOf s2 := by
          have hd := (List.nodup_append.mp hnodup2_app).2.2
          intro hmem
          exact hd hmem (by simp)
        have hInv2 : Inv hash s2 := by
          obtain ⟨hc1, hl1, hl2, hp1, hp2, hn1⟩ := hInv1
          refine ⟨hc1, hl1, by rw [hs2]; simpa using hl2, hp1, ?_, hnodup2⟩
          exact pos_set (fun x => (hash x >>> 16) ^^^ hash x) s1.capacity_ s1.table2
            k1 (k1, v1) hl2 rfl hp2
        have hchain : ((k2, v2) :: occs s2).Perm ((k, v) :: occs s) := by
          refine ((List.perm_append_singleton (k2, v2) (occs s2)).symm).trans ?_
          exact hperm2.trans (((List.perm_append_singleton (k1, v1)
            (occs s1)).symm).trans hperm1)
        have hrec := ih s2 k2 v2 hInv2 hk2fresh
        constructor
        · intro sf h
          unfold kickLoop at h
          rw [hslot1] at h
          simp only at h
          rw [hslot2] at h
          have hres := hrec.1 sf h
          refine ⟨hres.1, ?_, by rw [hres.2.2]⟩
          refine hres.2.1.trans ?_
          exact hchain
        · intro sf ck cv h
          unfold kickLoop at h
          rw [hslot1] at h
          simp only at h
          rw [hslot2] at h
          have hres := hrec.2 sf ck cv h
          refine ⟨hres.1, hres.2.1, ?_, by rw [hres.2.2.2]⟩
          refine hres.2.2.1.trans ?_
          exact hchain

end CuckooHash

namespace CuckooHash

theorem kickSteps_le (hash : ℕ → ℕ) : ∀ b s k v, kickSteps hash b s k v ≤ b := by
  intro b
  induction b with
  | zero => intro s k v; simp [kickSteps]
  | succ b ih =>
    intro s k v
    unfold kickSteps
    split
    · omega
    · rename_i k1 v1 heq1
      dsimp only
      split
      · omega
      · rename_i k2 v2 heq2
        have := ih { s with
          table1 := s.table1.set (hash1 hash s.capacity_ k) (some (k, v)),
          table2 := s.table2.set (hash2 hash s.capacity_ k1) (some (k1, v1)) } k2 v2
        omega

theorem filterMap_replicate_none {α : Type} (n : ℕ) :
    (List.replicate n (none : Option α)).filterMap id = [] := by
  induction n with
  | zero => rfl
  | succ m ih => simp [List.replicate_succ, List.filterMap_cons, ih]

theorem occs_mk (n : ℕ) : occs (mk n) = [] := by
  unfold occs mk
  rw [filterMap_replicate_none]
  rfl

theorem Inv_mk (hash : ℕ → ℕ) (n : ℕ) (h : 0 < n) : Inv hash (mk n) := by
  refine ⟨h, by simp [mk], by simp [mk], ?_, ?_, ?_⟩
  · intro i hi e he
    rw [show getd (mk n).table1 i none = none from
      getd_replicate n i none none hi] at he
    cases he
  · intro i hi e he
    rw [show getd (mk n).table2 i none = none from
      getd_replicate n i none none hi] at he
    cases he
  · unfold keysOf
    rw [occs_mk]
    exact List.nodup_nil

theorem holdsKey_false_of_fresh (s : State) (k : ℕ) (o : Option (ℕ × ℕ))
    (hfresh : k ∉ keysOf s) (hset : ∀ a, o = some a → a ∈ occs s) :
    holdsKey k o = false := by
  cases o with
  | none => rfl
  | some e =>
    obtain ⟨k', v'⟩ := e
    unfold holdsKey
    by_cases hkk : k' = k
    · exfalso
      refine hfresh ?_
      rw [← hkk]
      exact List.mem_map_of_mem Prod.fst (hset (k', v') rfl)
    · simpa using hkk

theorem slotValue_self (k v : ℕ) : slotValue k (some (k, v)) = some v := by
  simp [slotValue]

theorem slotValue_eq_some (k : ℕ) (o : Option (ℕ × ℕ)) (v : ℕ)
    (h : slotValue k o = some v) : o = some (k, v) := by
  cases o with
  | none => simp [slotValue] at h
  | some e =>
    obtain ⟨k', v'⟩ := e
    by_cases hk : k' = k
    · subst hk
      rw [slotValue_self] at h
      simp only [Option.some.injEq] at h
      subst h
      rfl
    · rw [show slotValue k (some (k', v')) = none from by simp [slotValue, hk]] at h
      cases h

theorem lookup_some_mem (hash : ℕ → ℕ) (s : State) (k v : ℕ)
    (h : lookup hash s k = some v) : (k, v) ∈ occs s := by
  unfold lookup at h
  cases hsv : slotValue k (getd s.table1 (hash1 hash s.capacity_ k) none) with
  | some w =>
    rw [hsv] at h
    have hw : (some w : Option ℕ) = some v := h
    have hmem := mem_occs1 s (k, w) _ (slotValue_eq_some _ _ _ hsv)
    rwa [Option.some.inj hw] at hmem
  | none =>
    rw [hsv] at h
    have h2 : slotValue k (getd s.table2 (hash2 hash s.capacity_ k) none) = some v := h
    exact mem_occs2 s (k, v) _ (slotValue_eq_some _ _ _ h2)

theorem mem_lookup (hash : ℕ → ℕ) (s : State) (k v : ℕ) (hinv : Inv hash s)
    (h : (k, v) ∈ occs s) : lookup hash s k = some v := by
  obtain ⟨hcap, hlen1, hlen2, hpos1, hpos2, hnodup⟩ := hinv
  rcases List.mem_append.mp h with h1 | h1
  · obtain ⟨o, ho, hoe⟩ := List.mem_filterMap.mp h1
    rw [show id o = o from rfl] at hoe
    subst hoe
    obtain ⟨i, hi⟩ := List.mem_iff_get?.mp ho
    have hgd : getd s.table1 i none = some (k, v) := by unfold getd; rw [hi]; rfl
    have hilt : i < s.capacity_ := by rw [← hlen1]; exact getd_some_lt _ _ _ hgd
    have hposi := hpos1 i hilt (k, v) (by rw [hgd]; simp)
    unfold lookup
    rw [show hash1 hash s.capacity_ k = i from hposi, hgd, slotValue_self]
  · obtain ⟨o, ho, hoe⟩ := List.mem_filterMap.mp h1
    rw [show id o = o from rfl] at hoe
    subst hoe
    obtain ⟨i, hi⟩ := List.mem_iff_get?.mp ho
    have hgd : getd s.table2 i none = some (k, v) := by unfold getd; rw [hi]; rfl
    have hilt : i < s.capacity_ := by rw [← hlen2]; exact getd_some_lt _ _ _ hgd
    have hposi := hpos2 i hilt (k, v) (by rw [hgd]; simp)
    unfold lookup
    cases hg1 : getd s.table1 (hash1 hash s.capacity_ k) none with
    | none =>
      rw [show slotValue k none = none from rfl]
      show slotValue k (getd s.table2 (hash2 hash s.capacity_ k) none) = some v
      rw [show hash2 hash s.capacity_ k = i from hposi, hgd, slotValue_self]
    | some e1 =>
      obtain ⟨k1, v1⟩ := e1
      by_cases hk1 : k1 = k
      · exfalso
        subst hk1
        have hm1 : k1 ∈ (s.table1.filterMap id).map Prod.fst :=
          List.mem_map_of_mem Prod.fst (List.mem_filterMap.mpr
            ⟨some (k1, v1), getd_some_mem _ _ _ hg1, rfl⟩)
        have hm2 : k1 ∈ (s.table2.filterMap id).map Prod.fst :=
          List.mem_map_of_mem Prod.fst (List.mem_filterMap.mpr
            ⟨some (k1, v), getd_some_mem _ _ _ hgd, rfl⟩)
        unfold keysOf occs at hnodup
        rw [List.map_append] at hnodup
        exact (List.nodup_append.mp hnodup).2.2 hm1 hm2
      · rw [show slotValue k (some (k1, v1)) = none from by simp [slotValue, hk1]]
        show slotValue k (getd s.table2 (hash2 hash s.capacity_ k) none) = some v
        rw [show hash2 hash s.capacity_ k = i from hposi, hgd, slotValue_self]

theorem lookup_none_fresh (hash : ℕ → ℕ) (s : State) (k : ℕ) (hinv : Inv hash s)
    (h : lookup hash s k = none) : k ∉ keysOf s := by
  intro hmem
  obtain ⟨e, hemem, heq⟩ := List.mem_map.mp hmem
  have hsome : lookup hash s k = some e.2 := by
    refine mem_lookup hash s k e.2 hinv ?_
    rw [← heq, Prod.mk.eta]
    exact hemem
  rw [h] at hsome
  cases hsome

theorem insert_spec (hash : ℕ → ℕ) : ∀ fuel s k v s3, Inv hash s → k ∉ keysOf s →
    insert hash fuel s k v = some s3 →
    Inv hash s3 ∧ (occs s3).Perm ((k, v) :: occs s) ∧ s.capacity_ ≤ s3.capacity_ ∧
      (∀ s2 ck cv, kickLoop hash s.capacity_ s k v = Sum.inr (s2, ck, cv) →
        2 * s.capacity_ ≤ s3.capacity_) := by
  intro fuel
  induction fuel with
  | zero =>
    intro s k v s3 hInv hfresh hins
    have hh1 : holdsKey k (getd s.table1 (hash1 hash s.capacity_ k) none) = false :=
      holdsKey_false_of_fresh s k _ hfresh (fun a ha => mem_occs1 s a _ ha)
    have hh2 : holdsKey k (getd s.table2 (hash2 hash s.capacity_ k) none) = false :=
      holdsKey_false_of_fresh s k _ hfresh (fun a ha => mem_occs2 s a _ ha)
    unfold insert at hins
    rw [hh1, hh2] at hins
    simp only [Bool.false_eq_true, if_false] at hins
    cases hkick : kickLoop hash s.capacity_ s k v with
    | inl s2 =>
      rw [hkick] at hins
      have hx : (some s2 : Option State) = some s3 := hins
      obtain rfl : s2 = s3 := Option.some.inj hx
      obtain ⟨hI2, hp2, hc2⟩ := (kickLoop_spec hash s.capacity_ s k v hInv hfresh).1 s2 hkick
      refine ⟨hI2, hp2, le_of_eq hc2.symm, ?_⟩
      intro s2' ck cv h'
      cases h'
    | inr trip =>
      obtain ⟨s2, ck, cv⟩ := trip
      rw [hkick] at hins
      have hx : (none : Option State) = some s3 := hins
      cases hx
  | succ f ih =>
    intro s k v s3 hInv hfresh hins
    have hfold : ∀ (es : List (ℕ × ℕ)) (acc sf : State), Inv hash acc →
        (keysOf acc ++ es.map Prod.fst).Nodup →
        es.foldlM (fun a e => insert hash f a e.1 e.2) acc = some sf →
        Inv hash sf ∧ (occs sf).Perm (occs acc ++ es) ∧ acc.capacity_ ≤ sf.capacity_ := by
      intro es
      induction es with
      | nil =>
        intro acc sf hIa _ hrun
        have hx : (some acc : Option State) = some sf := hrun
        obtain rfl : acc = sf := Option.some.inj hx
        exact ⟨hIa, by simp, le_refl _⟩
      | cons e rest ihe =>
        intro acc sf hIa hnd hrun
        rw [List.foldlM_cons] at hrun
        cases hstep : insert hash f acc e.1 e.2 with
        | none =>
          rw [hstep] at hrun
          have hx : (none : Option State) = some sf := hrun
          cases hx
        | some a1 =>
          rw [hstep] at hrun
          have hrest : rest.foldlM (fun a e => insert hash f a e.1 e.2) a1 = some sf := hrun
          have hfr : e.1 ∉ keysOf acc := by
            intro hmem
            exact (List.nodup_append.mp hnd).2.2 hmem (by simp)
          obtain ⟨hIa1, hperm1, hcap1, _⟩ := ih acc e.1 e.2 a1 hIa hfr hstep
          have hka1 : (keysOf a1).Perm (e.1 :: keysOf acc) := keys_perm_of_occs hperm1
          have hnd1 : (keysOf a1 ++ rest.map Prod.fst).Nodup := by
            have hp : (keysOf acc ++ (e :: rest).map Prod.fst).Perm
                (keysOf a1 ++ rest.map Prod.fst) := by
              have hp1 : (keysOf acc ++ (e :: rest).map Prod.fst).Perm
                  (e.1 :: (keysOf acc ++ rest.map Prod.fst)) := by
                simp only [List.map_cons]
                exact List.perm_middle
              have hp2 : (keysOf a1 ++ rest.map Prod.fst).Perm
                  (e.1 :: (keysOf acc ++ rest.map Prod.fst)) :=
                hka1.append_right _
              exact hp1.trans hp2.symm
            exact hp.nodup hnd
          obtain ⟨hIsf, hpermf, hcapf⟩ := ihe a1 sf hIa1 hnd1 hrest
          refine ⟨hIsf, ?_, le_trans hcap1 hcapf⟩
          have h2 : (occs a1 ++ rest).Perm (e :: (occs acc ++ rest)) :=
            hperm1.append_right rest
          have h3 : (e :: (occs acc ++ rest)).Perm (occs acc ++ e :: rest) :=
            List.perm_middle.symm
          exact (hpermf.trans h2).trans h3
    have hh1 : holdsKey k (getd s.table1 (hash1 hash s.capacity_ k) none) = false :=
      holdsKey_false_of_fresh s k _ hfresh (fun a ha => mem_occs1 s a _ ha)
    have hh2 : holdsKey k (getd s.table2 (hash2 hash s.capacity_ k) none) = false :=
      holdsKey_false_of_fresh s k _ hfresh (fun a ha => mem_occs2 s a _ ha)
    unfold insert at hins
    rw [hh1, hh2] at hins
    simp only [Bool.false_eq_true, if_false] at hins
    cases hkick : kickLoop hash s.capacity_ s k v with
    | inl s2 =>
      rw [hkick] at hins
      have hx : (some s2 : Option State) = some s3 := hins
      obtain rfl : s2 = s3 := Option.some.inj hx
      obtain ⟨hI2, hp2, hc2⟩ := (kickLoop_spec hash s.capacity_ s k v hInv hfresh).1 s2 hkick
      refine ⟨hI2, hp2, le_of_eq hc2.symm, ?_⟩
      intro s2' ck cv h'
      cases h'
    | inr trip =>
      obtain ⟨s2, ck, cv⟩ := trip
      rw [hkick] at hins
      have hins' : ((s2.table1.filterMap id ++ s2.table2.filterMap id).foldlM
          (fun acc e => insert hash f acc e.1 e.2) (mk (2 * s2.capacity_))).bind
          (fun s3' => insert hash f s3' ck cv) = some s3 := hins
      obtain ⟨hI2, hckf, hperm2, hc2⟩ :=
        (kickLoop_spec hash s.capacity_ s k v hInv hfresh).2 s2 ck cv hkick
      cases hfoldr : (s2.table1.filterMap id ++ s2.table2.filterMap id).foldlM
          (fun acc e => insert hash f acc e.1 e.2) (mk (2 * s2.capacity_)) with
      | none =>
        rw [hfoldr] at hins'
        have hx : (none : Option State) = some s3 := hins'
        cases hx
      | some sf =>
        rw [hfoldr] at hins'
        have hlast : insert hash f sf ck cv = some s3 := hins'
        have hImk : Inv hash (mk (2 * s2.capacity_)) := by
          refine Inv_mk hash _ ?_
          have := hI2.1
          omega
        have hnd : (keysOf (mk (2 * s2.capacity_)) ++ (occs s2).map Prod.fst).Nodup := by
          rw [show keysOf (mk (2 * s2.capacity_)) = [] from by unfold keysOf; rw [occs_mk, List.map_nil]]
          simpa using hI2.2.2.2.2.2
        obtain ⟨hIsf, hpermsf, hcapsf⟩ := hfold (occs s2) (mk (2 * s2.capacity_)) sf hImk hnd hfoldr
        have hpermsf' : (occs sf).Perm (occs s2) := by
          have h0 := hpermsf
          rw [occs_mk] at h0
          simpa using h0
        have hckf' : ck ∉ keysOf sf := by
          intro hmem
          exact hckf ((keys_perm_of_occs hpermsf').mem_iff.mp hmem)
        obtain ⟨hIs3, hperm3, hcap3, _⟩ := ih sf ck cv s3 hIsf hckf' hlast
        have hcapmk : (mk (2 * s2.capacity_)).capacity_ = 2 * s2.capacity_ := rfl
        refine ⟨hIs3, ?_, ?_, ?_⟩
        · exact hperm3.trans ((hpermsf'.cons (ck, cv)).trans hperm2)
        · rw [← hc2]
          rw [hcapmk] at hcapsf
          omega
        · intro s2' ck' cv' h'
          rw [← hc2]
          rw [hcapmk] at hcapsf
          omega

end CuckooHash

/-! ## Funnel hashing (src/unnamed/part_001)

`double` quantities are modelled exactly: `ceil(4*log2(1/delta) + 10)` is
`Int.clog 2 (delta⁻¹^4) + 10` (the summand 10 is an integer, and
`⌈4·log2 x⌉ = ⌈log2 (x^4)⌉`), `ceil(log2(1/delta))` is `Int.clog 2 delta⁻¹`,
`ceil(log2(log2 n))` is `Nat.clog 2 (Nat.clog 2 n)` (`⌈log2 y⌉ = ⌈log2 ⌈y⌉⌉`
for `y ≥ 1`), and `buildLevels` runs on exact rationals, with `0.75` as
`3/4`.  For the parameter values exercised below these coincide with the
IEEE-double results of the C++. -/

/-- Ceiling of `log2` on naturals (`0` for `n ≤ 1`), by structural
recursion on a fuel argument (`⌈log2 n⌉ = ⌈log2 ⌈n/2⌉⌉ + 1` for `n ≥ 2`),
so that concrete traces evaluate inside the kernel. -/
def clog2go : ℕ → ℕ → ℕ
  | 0, _ => 0
  | fuel + 1, n => if n ≤ 1 then 0 else clog2go fuel ((n + 1) / 2) + 1

/-- `⌈log2 n⌉`. -/
def clog2 (n : ℕ) : ℕ := clog2go n n

/-- `⌈log2 q⌉` for a rational `q ≥ 1`, via `⌈log2 q⌉ = ⌈log2 ⌈q⌉⌉`. -/
def qclog2 (q : ℚ) : ℕ := clog2 q.ceil.toNat

namespace FunnelHash

/-- One slot: `Entry { state; optional<pair> kv }`; a `Deleted` entry has
its `kv` reset, so no payload is kept. -/
inductive FEntry where
  | empty
  | occ (k v : ℕ)
  | del
deriving DecidableEq, Repr

/-- The C++ `splitmix64`, on naturals mod `2^64`. -/
def splitmix64 (x0 : ℕ) : ℕ :=
  let x1 := (x0 + 0x9e3779b97f4a7c15) % 2 ^ 64
  let x2 := ((x1 ^^^ (x1 >>> 30)) * 0xbf58476d1ce4e5b9) % 2 ^ 64
  let x3 := ((x2 ^^^ (x2 >>> 27)) * 0x94d049bb133111eb) % 2 ^ 64
  x3 ^^^ (x3 >>> 31)

/-- `hashPos(lvl, key, probe)`. -/
def hashPos (hash : ℕ → ℕ) (lvl k probe : ℕ) : ℕ :=
  let h := hash k % 2 ^ 64
  splitmix64 (splitmix64 (h ^^^ lvl) ^^^ splitmix64 (h ^^^ probe))

/-- `hashToBucket(lvl, h)`. -/
def hashToBucket (lvl h : ℕ) : ℕ :=
  splitmix64 ((h % 2 ^ 64) ^^^ (lvl * 0x9e3779b97f4a7c15 % 2 ^ 64))

structure State where
  slots_ : List (List FEntry)
  occupied_ : List ℕ
  total_size_ : ℕ
  inserts_done_ : ℕ
  delta_ : ℚ
  alpha_ : ℕ
  beta_ : ℕ
deriving DecidableEq, Repr

/-- The size-assignment loop of `buildLevels`: geometric shares of `rem`,
rounded down to multiples of `beta`, stopping at the first share below
`beta`. -/
def buildGo (beta rem : ℕ) (s : ℚ) : ℕ → ℕ → List ℕ
  | 0, _ => []
  | fuel + 1, i =>
    let sz := (((rem : ℚ) * (3 / 4 : ℚ) ^ i / s).floor).toNat
    if sz < beta then []
    else (sz / beta * beta) :: buildGo beta rem s fuel (i + 1)

/-- `buildLevels(n)`: returns the level sizes (levels `A1..Aα` then the
overflow level) and the shrunken `alpha_`. -/
def buildLevels (delta : ℚ) (alpha beta n : ℕ) : List ℕ × ℕ :=
  let minOverflow := ((delta * (n : ℚ) / 2).ceil).toNat
  let rem := n - minOverflow
  let s := ((List.range alpha).map fun i => ((3 : ℚ) / 4) ^ i).sum
  let szs := buildGo beta rem s alpha 0
  let assigned := szs.sum
  let overflowSz := max (n - assigned) minOverflow
  (szs ++ [overflowSz], szs.length)

/-- Re-run `buildLevels n` on a state (fresh empty levels, zero occupancy,
`alpha_` shrunk to the built level count). -/
def applyBuild (s : State) (n : ℕ) : State :=
  { s with slots_ := (buildLevels s.delta_ s.alpha_ s.beta_ n).1.map
             fun sz => List.replicate sz FEntry.empty,
           occupied_ := List.replicate (buildLevels s.delta_ s.alpha_ s.beta_ n).1.length 0,
           alpha_ := (buildLevels s.delta_ s.alpha_ s.beta_ n).2 }

/-- The constructor `FunnelHash(n, delta)`, modelled for
`delta ∈ (0,1)`, where `log2(1/delta) > 0` and the clamped-at-zero
`qclog2` agrees with the C++ `ceil`.  Outside that interval the C++
constructor has no defined result to model: for `delta > 1` the
`size_t(ceil(log2(1.0/delta)))` conversion casts a negative double
(undefined behavior), and at `delta = 1` the resulting `beta_ = 0` makes
`buildLevels` divide by zero. -/
def funnelNew (n : ℕ) (delta : ℚ) : State :=
  let alpha0 := qclog2 (delta⁻¹ ^ 4) + 10
  let beta := qclog2 delta⁻¹
  applyBuild
    { slots_ := [], occupied_ := [], total_size_ := n, inserts_done_ := 0,
      delta_ := delta, alpha_ := alpha0, beta_ := beta }
    (max n 64)

/-- Write one slot. -/
def setEntry (s : State) (lvl idx : ℕ) (e : FEntry) : State :=
  { s with slots_ := s.slots_.set lvl ((getd s.slots_ lvl []).set idx e) }

/-- `place` then `++inserts_done_`. -/
def placeInc (s : State) (lvl idx k v : ℕ) : State :=
  { s with slots_ := s.slots_.set lvl ((getd s.slots_ lvl []).set idx (.occ k v)),
           occupied_ := s.occupied_.set lvl (getd s.occupied_ lvl 0 + 1),
           inserts_done_ := s.inserts_done_ + 1 }

/-- One slot attempt shared by the insert scans: same-key occupied slot is
overwritten, a different occupied key passes, an empty or deleted slot
takes the new pair. -/
def tryIdx (s : State) (lvl idx k v : ℕ) : Option State :=
  match getd (getd s.slots_ lvl []) idx .empty with
  | .occ k' _ => if k' = k then some (setEntry s lvl idx (.occ k' v)) else none
  | _ => some (placeInc s lvl idx k v)

/-- The β-slot bucket scan of `insert`. -/
def insertScan (s : State) (lvl start k v : ℕ) : ℕ → ℕ → Option State
  | _, 0 => none
  | j, fuel + 1 =>
    match tryIdx s lvl (start + j) k v with
    | some t => some t
    | none => insertScan s lvl start k v (j + 1) fuel

/-- The greedy levels loop of `insert` (`lvl < alpha_`). -/
def insertLevels (hash : ℕ → ℕ) (s : State) (k v : ℕ) : ℕ → ℕ → Option State
  | _, 0 => none
  | lvl, fuel + 1 =>
    match insertScan s lvl
        (hashToBucket lvl (hash k % 2 ^ 64) % ((getd s.slots_ lvl []).length / s.beta_)
          * s.beta_) k v 0 s.beta_ with
    | some t => some t
    | none => insertLevels hash s k v (lvl + 1) fuel

/-- The uniform-probing first phase of `insertOverflow`. -/
def ovProbe (hash : ℕ → ℕ) (s : State) (k v half : ℕ) : ℕ → ℕ → Option State
  | _, 0 => none
  | t, fuel + 1 =>
    match tryIdx s s.alpha_ (hashPos hash s.alpha_ k t % half) k v with
    | some t' => some t'
    | none => ovProbe hash s k v half (t + 1) fuel

/-- The two-choice second phase of `insertOverflow`. -/
def ovPair (s : State) (k v half bs h1 h2 : ℕ) : ℕ → ℕ → Option State
  | _, 0 => none
  | j, fuel + 1 =>
    match tryIdx s s.alpha_ (half + h1 * bs + j) k v with
    | some t => some t
    | none =>
      match tryIdx s s.alpha_ (half + h2 * bs + j) k v with
      | some t => some t
      | none => ovPair s k v half bs h1 h2 (j + 1) fuel

/-- The whole-second-half scan fallback of `insertOverflow`. -/
def ovScan (s : State) (k v : ℕ) : ℕ → ℕ → Option State
  | _, 0 => none
  | idx, fuel + 1 =>
    match tryIdx s s.alpha_ idx k v with
    | some t => some t
    | none => ovScan s k v (idx + 1) fuel

/-- `ceil(log2(log2(total_size_ + 2)))`. -/
def ovLimit (s : State) : ℕ := clog2 (clog2 (s.total_size_ + 2))

/-- `insertOverflow` up to (not including) its final expand-and-retry. -/
def ovAll (hash : ℕ → ℕ) (s : State) (k v : ℕ) : Option State :=
  let m := (getd s.slots_ s.alpha_ []).length
  let half := m / 2
  let limit := ovLimit s
  match ovProbe hash s k v half 0 limit with
  | some t => some t
  | none =>
    if half ≥ limit * 2 * 2 then
      ovPair s k v half (limit * 2)
        (hashToBucket s.alpha_ (hash k % 2 ^ 64) % (half / (limit * 2)))
        (hashToBucket s.alpha_ ((hash k % 2 ^ 64) ^^^ 0x9e3779b97f4a7c15) % (half / (limit * 2)))
        0 (limit * 2)
    else ovScan s k v half (m - half)

/-- All live pairs, in level order (the collection loop of `expand`). -/
def items (s : State) : List (ℕ × ℕ) :=
  (s.slots_.map fun lvl => lvl.filterMap fun e =>
    match e with
    | .occ k v => some (k, v)
    | _ => none).flatten

/-- `insert`, with the `expand → insert` recursion bounded by fuel.
`expand` doubles `total_size_`, rebuilds the levels empty, zeroes
`inserts_done_` and reinserts all collected items. -/
def insert (hash : ℕ → ℕ) : ℕ → State → ℕ → ℕ → Option State
  | 0, _, _, _ => none
  | fuel + 1, s, k, v =>
    if (s.inserts_done_ : ℚ) + 1 > (s.total_size_ : ℚ) * (1 - s.delta_) then
      ((items s).foldlM (fun acc e => insert hash fuel acc e.1 e.2)
          { applyBuild { s with total_size_ := s.total_size_ * 2 } (s.total_size_ * 2)
              with inserts_done_ := 0 }).bind
        fun t => insert hash fuel t k v
    else
      match insertLevels hash s k v 0 s.alpha_ with
      | some t => some t
      | none =>
        match ovAll hash s k v with
        | some t => some t
        | none =>
          ((items s).foldlM (fun acc e => insert hash fuel acc e.1 e.2)
              { applyBuild { s with total_size_ := s.total_size_ * 2 } (s.total_size_ * 2)
                  with inserts_done_ := 0 }).bind
            fun t => insert hash fuel t k v

/-- The β-slot bucket scan of `lookup` (stops at the first `Empty` slot). -/
def lookupScan (s : State) (lvl start k : ℕ) : ℕ → ℕ → Option ℕ
  | _, 0 => none
  | j, fuel + 1 =>
    match getd (getd s.slots_ lvl []) (start + j) .empty with
    | .empty => none
    | .occ k' v' => if k' = k then some v' else lookupScan s lvl start k (j + 1) fuel
    | .del => lookupScan s lvl start k (j + 1) fuel

/-- The levels loop of `lookup`. -/
def lookupLevels (hash : ℕ → ℕ) (s : State) (k : ℕ) : ℕ → ℕ → Option ℕ
  | _, 0 => none
  | lvl, fuel + 1 =>
    match lookupScan s lvl
        (hashToBucket lvl (hash k % 2 ^ 64) % ((getd s.slots_ lvl []).length / s.beta_)
          * s.beta_) k 0 s.beta_ with
    | some v => some v
    | none => lookupLevels hash s k (lvl + 1) fuel

/-- Uniform-probing phase of `lookupOverflow` (stops at `Empty`). -/
def lkProbe (hash : ℕ → ℕ) (s : State) (k half : ℕ) : ℕ → ℕ → Option ℕ
  | _, 0 => none
  | t, fuel + 1 =>
    match getd (getd s.slots_ s.alpha_ []) (hashPos hash s.alpha_ k t % half) .empty with
    | .empty => none
    | .occ k' v' => if k' = k then some v' else lkProbe hash s k half (t + 1) fuel
    | .del => lkProbe hash s k half (t + 1) fuel

/-- Two-choice phase of `lookupOverflow`: an `Empty` first slot skips the
second candidate of the same round but keeps scanning later rounds. -/
def lkPair (s : State) (k half bs h1 h2 : ℕ) : ℕ → ℕ → Option ℕ
  | _, 0 => none
  | j, fuel + 1 =>
    match getd (getd s.slots_ s.alpha_ []) (half + h1 * bs + j) .empty with
    | .empty => lkPair s k half bs h1 h2 (j + 1) fuel
    | .occ k' v' =>
      if k' = k then some v'
      else
        match getd (getd s.slots_ s.alpha_ []) (half + h2 * bs + j) .empty with
        | .occ k'' v'' => if k'' = k then some v'' else lkPair s k half bs h1 h2 (j + 1) fuel
        | _ => lkPair s k half bs h1 h2 (j + 1) fuel
    | .del =>
      match getd (getd s.slots_ s.alpha_ []) (half + h2 * bs + j) .empty with
      | .occ k'' v'' => if k'' = k then some v'' else lkPair s k half bs h1 h2 (j + 1) fuel
      | _ => lkPair s k half bs h1 h2 (j + 1) fuel

/-- Whole-second-half scan of `lookupOverflow` (`Empty` slots are skipped,
not a stop). -/
def lkScan (s : State) (k : ℕ) : ℕ → ℕ → Option ℕ
  | _, 0 => none
  | idx, fuel + 1 =>
    match getd (getd s.slots_ s.alpha_ []) idx .empty with
    | .occ k' v' => if k' = k then some v' else lkScan s k (idx + 1) fuel
    | _ => lkScan s k (idx + 1) fuel

/-- `lookupOverflow`. -/
def lookupOverflow (hash : ℕ → ℕ) (s : State) (k : ℕ) : Option ℕ :=
  let m := (getd s.slots_ s.alpha_ []).length
  if m < 1 then none
  else
    let half := m / 2
    let limit := ovLimit s
    match lkProbe hash s k half 0 limit with
    | some v => some v
    | none =>
      if half ≥ limit * 2 * 2 then
        lkPair s k half (limit * 2)
          (hashToBucket s.alpha_ (hash k % 2 ^ 64) % (half / (limit * 2)))
          (hashToBucket s.alpha_ ((hash k % 2 ^ 64) ^^^ 0x9e3779b97f4a7c15) % (half / (limit * 2)))
          0 (limit * 2)
      else lkScan s k half (m - half)

/-- `lookup`. -/
def lookup (hash : ℕ → ℕ) (s : State) (k : ℕ) : Option ℕ :=
  match lookupLevels hash s k 0 s.alpha_ with
  | some v => some v
  | none => lookupOverflow hash s k

/-- The per-level scan of `remove`: stops at `Empty`; on a match the slot
turns `Deleted` and only `occupied_[lvl]` is decremented. -/
def rmScan (s : State) (k lvl start : ℕ) : ℕ → ℕ → Option State
  | _, 0 => none
  | j, fuel + 1 =>
    match getd (getd s.slots_ lvl []) (start + j) .empty with
    | .empty => none
    | .occ k' _ =>
      if k' = k then
        some { s with slots_ := s.slots_.set lvl ((getd s.slots_ lvl []).set (start + j) .del),
                      occupied_ := s.occupied_.set lvl (getd s.occupied_ lvl 0 - 1) }
      else rmScan s k lvl start (j + 1) fuel
    | .del => rmScan s k lvl start (j + 1) fuel

/-- The levels loop of `remove` (all levels, including overflow). -/
def removeGo (hash : ℕ → ℕ) (s : State) (k : ℕ) : ℕ → ℕ → Bool × State
  | _, 0 => (false, s)
  | lvl, fuel + 1 =>
    match rmScan s k lvl
        (if lvl < s.alpha_ then
          hashToBucket lvl (hash k % 2 ^ 64) % ((getd s.slots_ lvl []).length / s.beta_)
            * s.beta_
         else 0) 0
        (if lvl < s.alpha_ then s.beta_ else (getd s.slots_ lvl []).length) with
    | some t => (true, t)
    | none => removeGo hash s k (lvl + 1) fuel

/-- `remove`. -/
def remove (hash : ℕ → ℕ) (s : State) (k : ℕ) : Bool × State :=
  removeGo hash s k 0 s.slots_.length

/-- `size()` returns the insertion counter `inserts_done_`. -/
def size (s : State) : ℕ := s.inserts_done_

end FunnelHash

/-! ## Elastic hashing (src/unnamed/part_007)

Only the constructor path is needed here: `ceil(C*log2(1/delta))` with
`C = 4.0` is modelled exactly as `qclog2 (delta⁻¹^4)`, and `init_tables`
is the `cap >> (lev+1)` loop. -/

namespace ElasticHash

structure State where
  capacity : ℕ
  delta : ℚ
  inserted : ℕ
  max_probes : ℕ
  sizes : List ℕ
  tables : List (List (Option (ℕ × ℕ)))
  occupied_counts : List ℕ
deriving DecidableEq, Repr

/-- The `while ((cap >> (lev + 1)) > 0)` loop of `init_tables` (the level
count is at most `cap`, which serves as fuel). -/
def initSizesGo : ℕ → ℕ → ℕ → List ℕ
  | 0, _, _ => []
  | fuel + 1, cap, lev =>
    if cap >>> (lev + 1) > 0 then (cap >>> (lev + 1)) :: initSizesGo fuel cap (lev + 1)
    else []

/-- The level sizes produced by `init_tables(cap)`: the halving sizes,
then the remainder level. -/
def init_sizes (cap : ℕ) : List ℕ :=
  initSizesGo cap cap 0 ++ [cap - (initSizesGo cap cap 0).sum]

/-- `init_tables(cap)`. -/
def init_tables (s : State) (cap : ℕ) : State :=
  { s with sizes := init_sizes cap,
           tables := (init_sizes cap).map fun sz => List.replicate sz none,
           occupied_counts := List.replicate (init_sizes cap).length 0 }

/-- The constructor `ElasticHash(initial_capacity, delta_thresh)`, wrapped
in `Except String` so the fail-fast property can be stated; the C++
constructor performs no validation of `delta_thresh` and cannot fail. -/
def new (initial_capacity : ℕ) (delta_thresh : ℚ) : Except String State :=
  Except.ok (init_tables
    { capacity := initial_capacity, delta := delta_thresh, inserted := 0,
      max_probes := qclog2 (delta_thresh⁻¹ ^ 4),
      sizes := [], tables := [], occupied_counts := [] } initial_capacity)

end ElasticHash

/-! ## Indexed-partition hash table with BTree mapper
(src/include/indexed_partition_hash_with_btree.h)

The per-bucket `query_mapper` is a `BTree<size_t>` used through
`search(fp)`, `insert(fp)` / `insert(fp, pos)` and `value_for_key(fp)`;
the BTree sources under `src/include/btree.h` store bare keys and have no
`value_for_key` or two-argument `insert`, so the mapper is modelled from
the specification as a fingerprint → slot-index map.  The
`fingerprint_hasher_ = hash<K>()` line of `rebuild_fingerprints`
"regenerates" a `std::hash`, which is stateless and deterministic, so the
fingerprint function is unchanged by a rebuild; the model keeps the same
`fpHash` accordingly. -/

namespace IndexedPartitionHashTable

/-- Modelled from the spec: the query mapper associates each stored
fingerprint with the slot index of its entry; an association list with
leftmost binding taking precedence. -/
abbrev Mapper : Type := List (ℕ × ℕ)

/-- Modelled from the spec: `query_mapper.search(fp)` yields the mapped
slot index if the fingerprint is present. -/
def mapperSearch (m : Mapper) (fp : ℕ) : Option ℕ :=
  List.lookup fp m

/-- Modelled from the spec: `query_mapper.insert(fp, pos)` binds the
fingerprint to the slot index (shadowing any older binding). -/
def mapperInsert (m : Mapper) (fp pos : ℕ) : Mapper :=
  (fp, pos) :: m

structure Bucket where
  slots : List (ℕ × ℕ)
  count : ℕ
  query_mapper : Mapper
deriving DecidableEq, Repr

structure State where
  n_ : ℕ
  btree_order_ : ℕ
  buckets_ : List Bucket
  size_ : ℕ
deriving DecidableEq, Repr

/-- The constructor with the `double` sizing already evaluated: at the
parameters used below (`n = 100`, `c = 2.0`) the C++ computes
`logn = ln 100 ≈ 4.60517`, `bucket_capacity = int(logn³ + 2·logn²) = 140`
and `num_buckets = int(100 / logn³) = 1`, `btree_order_ = int(sqrt logn) = 2`. -/
def ofParams (n num_buckets bucket_capacity order : ℕ) : State :=
  { n_ := n, btree_order_ := order,
    buckets_ := List.replicate num_buckets
      ⟨List.replicate bucket_capacity (0, 0), 0, []⟩,
    size_ := 0 }

/-- `hasher_(key) % buckets_.size()`. -/
def bucket_index (hash : ℕ → ℕ) (t : State) (k : ℕ) : ℕ :=
  hash k % t.buckets_.length

/-- `fingerprint_hasher_(key) % (1 << 12)`. -/
def fingerprint (fpHash : ℕ → ℕ) (k : ℕ) : ℕ :=
  fpHash k % 2 ^ 12

/-- The `for (i < bucket.count)` loop of `rebuild_fingerprints`: rebuild
the mapper, reporting `none` on the first in-bucket fingerprint collision
(the C++ then recurses). -/
def scanBuild (fpHash : ℕ → ℕ) (slots : List (ℕ × ℕ)) : ℕ → ℕ → Mapper → Option Mapper
  | _, 0, m => some m
  | i, fuel + 1, m =>
    if (mapperSearch m (fingerprint fpHash (getd slots i (0, 0)).1)).isSome then none
    else scanBuild fpHash slots (i + 1) fuel
      (mapperInsert m (fingerprint fpHash (getd slots i (0, 0)).1) i)

/-- `rebuild_fingerprints`, its unbounded self-recursion bounded by fuel;
`none` means the recursion never returns within the given bound. -/
def rebuildGo (fpHash : ℕ → ℕ) (bucket : Bucket) : ℕ → Option Bucket
  | 0 => none
  | fuel + 1 =>
    match scanBuild fpHash bucket.slots 0 bucket.count [] with
    | some m => some { bucket with query_mapper := m }
    | none => rebuildGo fpHash bucket fuel

/-- `insert`: on a mapper hit, rebuild first (possibly forever); then
either throw `Bucket overflow` or append the entry at `slots[count]` and
bind its fingerprint. -/
def insert (hash fpHash : ℕ → ℕ) (fuel : ℕ) (t : State) (k v : ℕ) :
    Option (Except String State) :=
  (if (mapperSearch (getd t.buckets_ (bucket_index hash t k) ⟨[], 0, []⟩).query_mapper
        (fingerprint fpHash k)).isSome then
    rebuildGo fpHash (getd t.buckets_ (bucket_index hash t k) ⟨[], 0, []⟩) fuel
  else some (getd t.buckets_ (bucket_index hash t k) ⟨[], 0, []⟩)).bind
    fun bucket =>
      if bucket.count ≥ bucket.slots.length then some (.error "Bucket overflow")
      else some (.ok { t with
        buckets_ := t.buckets_.set (bucket_index hash t k)
          { bucket with
            slots := bucket.slots.set bucket.count (k, v),
            query_mapper := mapperInsert bucket.query_mapper (fingerprint fpHash k) bucket.count,
            count := bucket.count + 1 },
        size_ := t.size_ + 1 })

/-- `lookup`: mapper hit, then the slot must hold the key. -/
def lookup (hash fpHash : ℕ → ℕ) (t : State) (k : ℕ) : Option ℕ :=
  match mapperSearch (getd t.buckets_ (bucket_index hash t k) ⟨[], 0, []⟩).query_mapper
      (fingerprint fpHash k) with
  | none => none
  | some pos =>
    if pos ≥ (getd t.buckets_ (bucket_index hash t k) ⟨[], 0, []⟩).count ∨
        (getd (getd t.buckets_ (bucket_index hash t k) ⟨[], 0, []⟩).slots pos (0, 0)).1 ≠ k then
      none
    else some (getd (getd t.buckets_ (bucket_index hash t k) ⟨[], 0, []⟩).slots pos (0, 0)).2

/-- `size()`. -/
def size (t : State) : ℕ := t.size_

/-- The table at the C++ default-style parameters `n = 100, c = 2.0`
(one bucket of capacity 140). -/
def c7t0 : State := ofParams 100 1 140 2

/-- After `insert(1, 10)`. -/
def c7t1 : State := match insert id id 1 c7t0 1 10 with | some (.ok t) => t | _ => c7t0

/-- After `insert(4097, 30)` (fingerprint collision with key 1; the
rebuild triggered by it succeeds, as only one entry is stored yet). -/
def c7t2 : State := match insert id id 1 c7t1 4097 30 with | some (.ok t) => t | _ => c7t0

/-- The single bucket of `c7t2`, holding both colliding keys. -/
def c7bkt : Bucket := getd c7t2.buckets_ 0 ⟨[], 0, []⟩

set_option maxRecDepth 4000 in
theorem c7_rebuildGo_none : ∀ fuel, rebuildGo id c7bkt fuel = none := by
  intro fuel
  induction fuel with
  | zero => rfl
  | succ f ih =>
    unfold rebuildGo
    rw [show scanBuild id c7bkt.slots 0 c7bkt.count [] = none from by decide]
    exact ih

end IndexedPartitionHashTable

/-! ## Concrete trace states used by the claim theorems -/

namespace FixedListChainedHashTable

theorem insertAll_capacity (hash : ℕ → ℕ) (t : State) (ps : List (ℕ × ℕ)) :
    (insertAll hash t ps).capacity_ = t.capacity_ := by
  induction ps generalizing t with
  | nil => rfl
  | cons p rest ih =>
    simp only [insertAll, List.foldl_cons]
    have h2 := ih (insert hash t p.1 p.2)
    simp only [insertAll] at h2
    rw [h2, insert_capacity]

end FixedListChainedHashTable

/-- Perfect-table trace (one bucket, identity hash): `insert(3,100)`. -/
def c1t1 : PerfectHash.State := PerfectHash.insert id 5 (PerfectHash.mk 1) 3 100

/-- … then `insert(7,200)`. -/
def c1t2 : PerfectHash.State := PerfectHash.insert id 5 c1t1 7 200

/-- … then `remove(3)` (the freed slot leaves no tombstone). -/
def c1t3 : PerfectHash.State := (PerfectHash.remove id c1t2 3).2

/-- … then `insert(5,400)`. -/
def c1t4 : PerfectHash.State := PerfectHash.insert id 5 c1t3 5 400

/-- … then `insert(7,300)`: the probe for key 7 stops at the freed slot
before reaching the live `(7,200)` entry, appending a duplicate. -/
def c1t5 : PerfectHash.State := PerfectHash.insert id 5 c1t4 7 300

/-- Perfect-table update trace: `insert(1,10)` into one bucket. -/
def c2u1 : PerfectHash.State := PerfectHash.insert id 5 (PerfectHash.mk 1) 1 10

/-- … then `insert(1,20)` on the live key. -/
def c2u2 : PerfectHash.State := PerfectHash.insert id 5 c2u1 1 20

/-- IPBT update trace: `insert(1,20)` into `c7t1`, whose key 1 is live. -/
def c2w2 : IndexedPartitionHashTable.State :=
  match IndexedPartitionHashTable.insert id id 1 IndexedPartitionHashTable.c7t1 1 20 with
  | some (.ok t) => t
  | _ => IndexedPartitionHashTable.c7t0

/-- `FunnelHash(64, 0.2)`. -/
def c3s0 : FunnelHash.State := FunnelHash.funnelNew 64 (1 / 5)

/-- … after `insert(1, 10)`. -/
def c3s1 : FunnelHash.State := (FunnelHash.insert id 3 c3s0 1 10).getD c3s0

/-- … after `remove(1)`. -/
def c3s2 : FunnelHash.State := (FunnelHash.remove id c3s1 1).2

/-- Iceberg trace (one block, identity hash): `insert(1,10)`. -/
def c4s1 : IcebergHash.State := IcebergHash.insert id 0 (IcebergHash.mk 1) 1 10

/-- … then `insert(2,20)`. -/
def c4s2 : IcebergHash.State := IcebergHash.insert id 0 c4s1 2 20

/-- … then `remove(1)`, which zeroes the key of slot 0 in place. -/
def c4s3 : IcebergHash.State := (IcebergHash.remove id c4s2 1).2

/-- … then `insert(2,99)`: the scan stops at the zero-key slot 0 before
reaching the live `(2,20)` in slot 1, so key 2 is now stored twice. -/
def c4s4 : IcebergHash.State := IcebergHash.insert id 0 c4s3 2 99

/-- An LP table whose two slots are occupied by other keys (`count` below
the resize threshold, so the probe loop runs and wraps). -/
def c5t : DynamicResizing.State := ⟨[.occupied 1 10, .occupied 2 20], 0⟩

/-- An LP table with two free slots. -/
def c5w : DynamicResizing.State := ⟨[.empty, .empty], 0⟩

/-- A full cuckoo table at capacity 1: both candidate slots of any new key
are occupied, so the kick loop exhausts its budget at once. -/
def c6s0 : CuckooHash.State := ⟨1, 2, [some (1, 10)], [some (2, 20)]⟩

/-- The result of `insert(3, 30)` into `c6s0`: capacity doubled to 2, all
three pairs stored. -/
def c6s3 : CuckooHash.State := ⟨2, 3, [some (2, 20), some (1, 10)], [none, some (3, 30)]⟩

/-- `ElasticHash(16, 1.0)` — `delta = 1` is outside `(0,1)`. -/
def c9e : ElasticHash.State := (ElasticHash.new 16 1).toOption.getD ⟨0, 0, 0, 0, [], [], []⟩

/-- Three distinct keys for the chain table. -/
def c10ps : List (ℕ × ℕ) := [(1, 10), (2, 20), (3, 30)]

/-- A mixed operation sequence for the chain table. -/
def c10ops : List FixedListChainedHashTable.Op := [.ins 4 40, .upd 4 44, .rem 4, .clr]

/-! ## The claims -/

/-- C1: "For every table variant, every key k and every value v:
immediately after insert(k, v), lookup(k) returns present(v)."  As stated
this fails for the Perfect table (see the counterexample: a remove frees a
slot on the probe path, a later insert of a duplicated key stops there,
and lookup then returns the stale value).  Amended to the Iceberg table,
the cited variant with a proof: on any well-formed state, after
`insert(k, v)` a `lookup k` returns `some v`. -/
theorem C1_iceberg_insert_then_lookup (hash : ℕ → ℕ) (fuel : ℕ) (s : IcebergHash.State)
    (k v : ℕ) (hwf : IcebergHash.WF s) :
    IcebergHash.lookup hash (IcebergHash.insert hash fuel s k v) k = some v :=
  IcebergHash.insert_lookup hash fuel s k v hwf

/-- C1 witness: the amended theorem at a concrete input. -/
theorem C1_iceberg_insert_then_lookup_witness :
    IcebergHash.WF (IcebergHash.mk 1) ∧
    IcebergHash.lookup id (IcebergHash.insert id 0 (IcebergHash.mk 1) 5 77) 5 = some 77 :=
  ⟨by decide, C1_iceberg_insert_then_lookup id 0 (IcebergHash.mk 1) 5 77 (by decide)⟩

/-- C1 counterexample: in the Perfect table with one bucket and identity
hash, after `insert(3,100); insert(7,200); remove(3); insert(5,400)`,
the insert of `(7,300)` completes but `lookup 7` still returns the stale
`200`. -/
theorem C1_perfect_stale_lookup_cex :
    PerfectHash.lookup id c1t5 7 = some 200 ∧ (200 : ℕ) ≠ 300 := by decide

set_option maxRecDepth 20000 in
/-- C2: "if key k is live … insert(k, v1) replaces the stored value …
and leaves size() unchanged."  The replacement happens, but both cited
tables grow `size_` on the update: `PerfectHash::insert` increments it
whenever `insert_or_modify` returns true, and every return path of
`insert_or_modify` yields true; `IndexedPartitionHashTable::insert`
appends a second entry for the live key with no equal-key check.  In both
traces the key is live with value 10, the new value 20 is then returned
by lookup, and `size()` grows by one. -/
theorem C2_update_size_bug :
    PerfectHash.lookup id c2u1 1 = some 10 ∧
    PerfectHash.lookup id c2u2 1 = some 20 ∧
    PerfectHash.size c2u2 = PerfectHash.size c2u1 + 1 ∧
    IndexedPartitionHashTable.lookup id id IndexedPartitionHashTable.c7t1 1 = some 10 ∧
    IndexedPartitionHashTable.insert id id 1 IndexedPartitionHashTable.c7t1 1 20 =
      some (Except.ok c2w2) ∧
    IndexedPartitionHashTable.lookup id id c2w2 1 = some 20 ∧
    IndexedPartitionHashTable.size c2w2 =
      IndexedPartitionHashTable.size IndexedPartitionHashTable.c7t1 + 1 :=
  ⟨by decide, by decide, by decide, by decide, by rfl, by decide, by decide⟩

set_option maxRecDepth 20000 in
unseal Rat.mul Rat.inv Rat.add Rat.sub in
/-- C3: "if key k is live then remove(k) returns true, afterwards
lookup(k) is absent, size() decreases by exactly one, and a second
remove(k) returns false; in particular … the Funnel table".  In
`FunnelHash(64, 0.2)` after `insert(1,10)`: `remove(1)` returns true,
lookup is absent and a second remove returns false — but `remove`
decrements only `occupied_[lvl]` while `size()` returns `inserts_done_`,
so `size()` stays 1 instead of dropping to 0. -/
theorem C3_funnel_remove_size_bug :
    (FunnelHash.insert id 3 c3s0 1 10).isSome = true ∧
    FunnelHash.size c3s1 = 1 ∧
    (FunnelHash.remove id c3s1 1).1 = true ∧
    FunnelHash.lookup id c3s2 1 = none ∧
    FunnelHash.size c3s2 = FunnelHash.size c3s1 ∧
    (FunnelHash.remove id c3s2 1).1 = false := by decide

/-- C4: "Key uniqueness is an invariant of every table variant … in
particular … the Iceberg table".  It is not an invariant of
insert/remove sequences (see the counterexample); amended to the
insert-only setting it holds: inserting a fresh nonzero key into a
well-formed Iceberg table whose keys are unique, with no zero-key live
entry, leaves every key stored in at most one live slot. -/
theorem C4_iceberg_unique_keys (hash : ℕ → ℕ) (fuel : ℕ) (s : IcebergHash.State)
    (k v : ℕ) (hwf : IcebergHash.WF s) (hone : ∀ p, IcebergHash.ckey p s ≤ 1)
    (h0 : IcebergHash.ckey 0 s = 0) (hk : IcebergHash.ckey k s = 0) (hk0 : k ≠ 0)
    (q : ℕ) :
    IcebergHash.ckey q (IcebergHash.insert hash fuel s k v) ≤ 1 := by
  rw [IcebergHash.insert_ckey hash fuel s k v hwf hone h0 hk hk0 q]
  by_cases hq : q = k
  · rw [if_pos hq, hq, hk]
  · rw [if_neg hq]
    have := hone q
    omega

/-- C4 witness: the amended theorem at a concrete input. -/
theorem C4_iceberg_unique_keys_witness :
    IcebergHash.WF (IcebergHash.mk 1) ∧ (5 : ℕ) ≠ 0 ∧
    IcebergHash.ckey 5 (IcebergHash.insert id 0 (IcebergHash.mk 1) 5 7) ≤ 1 :=
  ⟨by decide, by decide,
   C4_iceberg_unique_keys id 0 (IcebergHash.mk 1) 5 7 (by decide)
     (fun p => by rw [IcebergHash.ckey_mk]; exact Nat.zero_le 1)
     (IcebergHash.ckey_mk 1 0) (IcebergHash.ckey_mk 1 5) (by decide) 5⟩

/-- C4 counterexample: in one Iceberg block with identity hash,
`insert(1,10); insert(2,20); remove(1); insert(2,99)` leaves key 2 in two
live slots (the insert scan stopped at the zeroed slot 0 before reaching
the live `(2,20)`). -/
theorem C4_iceberg_duplicate_key_cex :
    IcebergHash.ckey 2 c4s4 = 2 ∧
    IcebergHash.entriesIce c4s4 = [(2, 99), (2, 20)] ∧
    (IcebergHash.remove id c4s2 1).1 = true := by decide

/-- C5: the LP insert probes from `h(k) mod N`, overwrites on an equal
occupied key, otherwise places at the first empty-or-deleted slot, and
resizes on the exact threshold `5·(size+1) > 3·N` (= `(size+1)/N >
0.6`); but when the probe wraps back to its start position the code
returns with the table unchanged — it does not resize and the entry is
not stored (the claim's "resizes first, the new entry is still stored"
is refuted by the counterexample). -/
theorem C5_lp_insert_probe (hash : ℕ → ℕ) (fuel : ℕ) (t : DynamicResizing.State)
    (k v : ℕ) (hpos : 0 < t.table.length)
    (hthr : ¬5 * (t.count + 1) > 3 * t.table.length) :
    (t.table.all (DynamicResizing.isBlocking k) = true →
      DynamicResizing.insert hash fuel t k v = (false, t)) ∧
    (t.table.all (DynamicResizing.isBlocking k) = false →
      (DynamicResizing.insert hash fuel t k v).1 = true ∧
      DynamicResizing.lookup hash (DynamicResizing.insert hash fuel t k v).2 k = some v) :=
  ⟨fun hall => DynamicResizing.insert_wrap hash fuel t k v hpos hthr hall,
   fun hnall => DynamicResizing.insert_found hash fuel t k v hpos hthr hnall⟩

/-- C5 witness: the theorem at a concrete input with free slots. -/
theorem C5_lp_insert_probe_witness :
    0 < c5w.table.length ∧ ¬5 * (c5w.count + 1) > 3 * c5w.table.length ∧
    ((c5w.table.all (DynamicResizing.isBlocking 1) = true →
       DynamicResizing.insert id 1 c5w 1 10 = (false, c5w)) ∧
     (c5w.table.all (DynamicResizing.isBlocking 1) = false →
       (DynamicResizing.insert id 1 c5w 1 10).1 = true ∧
       DynamicResizing.lookup id (DynamicResizing.insert id 1 c5w 1 10).2 1 = some 10)) :=
  ⟨by decide, by decide, C5_lp_insert_probe id 1 c5w 1 10 (by decide) (by decide)⟩

/-- C5 counterexample: on a table whose slots are all occupied by other
keys (below the resize threshold), the wrapped probe returns `false` with
the table unchanged — same length, entry absent — where the claim says
the table resizes and stores the entry. -/
theorem C5_lp_wrap_no_resize_cex :
    DynamicResizing.insert id 1 c5t 5 50 = (false, c5t) ∧
    DynamicResizing.lookup id (DynamicResizing.insert id 1 c5t 5 50).2 5 = none ∧
    (DynamicResizing.insert id 1 c5t 5 50).2.table.length = c5t.table.length := by decide

/-- C6: cuckoo insert of a fresh key: the displacement chain is capped at
`capacity_` kicks; on success every previously stored pair is still
found with its value and the new key maps to its value; the capacity
never shrinks, and if the kick budget was exhausted the table was rebuilt
at (at least) double capacity with everything reinserted. -/
theorem C6_cuckoo_insert_rehash (hash : ℕ → ℕ) (fuel : ℕ) (s : CuckooHash.State)
    (k v : ℕ) (s3 : CuckooHash.State) (hinv : CuckooHash.Inv hash s)
    (hfresh : k ∉ CuckooHash.keysOf s)
    (hins : CuckooHash.insert hash fuel s k v = some s3) :
    CuckooHash.kickSteps hash s.capacity_ s k v ≤ s.capacity_ ∧
    CuckooHash.lookup hash s3 k = some v ∧
    (∀ k' v', (k', v') ∈ CuckooHash.occs s → CuckooHash.lookup hash s3 k' = some v') ∧
    s.capacity_ ≤ s3.capacity_ ∧
    (∀ s2 ck cv, CuckooHash.kickLoop hash s.capacity_ s k v = Sum.inr (s2, ck, cv) →
      2 * s.capacity_ ≤ s3.capacity_) := by
  obtain ⟨hI3, hperm, hcap, hdbl⟩ :=
    CuckooHash.insert_spec hash fuel s k v s3 hinv hfresh hins
  refine ⟨CuckooHash.kickSteps_le hash s.capacity_ s k v, ?_, ?_, hcap, hdbl⟩
  · exact CuckooHash.mem_lookup hash s3 k v hI3 (hperm.mem_iff.mpr (by simp))
  · intro k' v' hmem
    exact CuckooHash.mem_lookup hash s3 k' v' hI3
      (hperm.mem_iff.mpr (List.mem_cons_of_mem _ hmem))

/-- C6 witness: the theorem at a concrete full table (capacity 1, both
candidate slots of key 3 occupied, kick budget exhausts, table doubles). -/
theorem C6_cuckoo_insert_rehash_witness :
    CuckooHash.Inv id c6s0 ∧ 3 ∉ CuckooHash.keysOf c6s0 ∧
    CuckooHash.insert id 3 c6s0 3 30 = some c6s3 ∧
    (CuckooHash.kickSteps id c6s0.capacity_ c6s0 3 30 ≤ c6s0.capacity_ ∧
     CuckooHash.lookup id c6s3 3 = some 30 ∧
     (∀ k' v', (k', v') ∈ CuckooHash.occs c6s0 → CuckooHash.lookup id c6s3 k' = some v') ∧
     c6s0.capacity_ ≤ c6s3.capacity_ ∧
     (∀ s2 ck cv, CuckooHash.kickLoop id c6s0.capacity_ c6s0 3 30 = Sum.inr (s2, ck, cv) →
       2 * c6s0.capacity_ ≤ c6s3.capacity_)) :=
  ⟨by decide, by decide, by rfl,
   C6_cuckoo_insert_rehash id 3 c6s0 3 30 c6s3 (by decide) (by decide) (by rfl)⟩

set_option maxRecDepth 20000 in
/-- C7: "the fingerprint-map rebuild triggered by a fingerprint collision
terminates: its retry attempts are bounded by a fixed limit, and on
exhausting the limit the operation fails with a diagnostic".  The code
has no limit: regenerating `fingerprint_hasher_` is a no-op (a stateless
`std::hash`), so with two stored keys of equal fingerprint (1 and 4097,
both ≡ 1 mod 2¹²) every later insert whose fingerprint is mapped recurses
forever — the modelled insert returns `none` at every fuel bound, never
an `Except.error` diagnostic. -/
theorem C7_ipbt_rebuild_diverges :
    IndexedPartitionHashTable.fingerprint id 1 = IndexedPartitionHashTable.fingerprint id 4097 ∧
    (1 : ℕ) ≠ 4097 ∧
    IndexedPartitionHashTable.insert id id 1 IndexedPartitionHashTable.c7t0 1 10 =
      some (Except.ok IndexedPartitionHashTable.c7t1) ∧
    IndexedPartitionHashTable.insert id id 1 IndexedPartitionHashTable.c7t1 4097 30 =
      some (Except.ok IndexedPartitionHashTable.c7t2) ∧
    ∀ fuel, IndexedPartitionHashTable.insert id id fuel IndexedPartitionHashTable.c7t2 8193 50 = none := by
  refine ⟨by decide, by decide, by rfl, by rfl, ?_⟩
  intro fuel
  unfold IndexedPartitionHashTable.insert
  rw [show getd IndexedPartitionHashTable.c7t2.buckets_
      (IndexedPartitionHashTable.bucket_index id IndexedPartitionHashTable.c7t2 8193)
      ⟨[], 0, []⟩ = IndexedPartitionHashTable.c7bkt from by rfl]
  rw [if_pos (show (IndexedPartitionHashTable.mapperSearch
      IndexedPartitionHashTable.c7bkt.query_mapper
      (IndexedPartitionHashTable.fingerprint id 8193)).isSome = true from by decide)]
  rw [IndexedPartitionHashTable.c7_rebuildGo_none fuel]
  rfl

/-- C8: after a rebuild of a secondary table holding `n` live entries its
capacity is `max(2n², 4)` (likewise for a fresh `build` of `n` entries),
and a bucket lookup examines at most `capacity` slots before
terminating. -/
theorem C8_perfect_secondary_sizing (hash : ℕ → ℕ) (entries : List (ℕ × ℕ))
    (t : SecondaryTable.State) (k : ℕ) :
    (SecondaryTable.build hash entries).capacity =
      max (2 * entries.length * entries.length) 4 ∧
    (SecondaryTable.rebuild hash t).capacity =
      max (2 * (t.table.filterMap id).length * (t.table.filterMap id).length) 4 ∧
    (SecondaryTable.lookupSteps hash t k).2 ≤ t.capacity :=
  ⟨SecondaryTable.build_capacity hash entries,
   SecondaryTable.build_capacity hash (t.table.filterMap id),
   SecondaryTable.lookupSteps_le_capacity hash t k⟩

set_option maxRecDepth 20000 in
unseal Rat.mul Rat.inv Rat.add Rat.sub in
/-- C9: "Constructing a Funnel or Elastic table with … delta outside the
open interval (0,1) fails fast at construction with a diagnostic".
Neither constructor validates `delta`.  Provable half: `ElasticHash(16,
1.0)` — `delta = 1` is outside `(0,1)`, and every `double` step is
IEEE-defined (`log2(1.0) = 0`, `ceil(4·0) = 0`) — builds normally, with
`max_probes = 0` and level sizes `[8,4,2,1,1]`.  The Funnel constructor
has no validation path either, but at every `delta` outside `(0,1)` its
arithmetic runs into C++ undefined behavior instead of a diagnostic
(`size_t(ceil(log2(1/delta)))` casts a negative double for `delta > 1`;
at `delta = 1` it yields `beta_ = 0` and `buildLevels` divides by zero),
so no defined constructor output exists for the model to state. -/
theorem C9_constructors_no_validation :
    ¬((0 : ℚ) < 1 ∧ (1 : ℚ) < 1) ∧
    ElasticHash.new 16 1 = Except.ok c9e ∧
    c9e.max_probes = 0 ∧ c9e.sizes = [8, 4, 2, 1, 1] :=
  ⟨by decide, by rfl, by decide, by decide⟩

set_option maxRecDepth 20000 in
unseal Rat.mul Rat.inv Rat.add Rat.sub in
/-- C9 counterexample: `delta = 1` is outside `(0,1)`, yet the Elastic
constructor succeeds (no failure path exists). -/
theorem C9_elastic_delta_one_cex :
    ¬((0 : ℚ) < 1 ∧ (1 : ℚ) < 1) ∧ (ElasticHash.new 16 1).isOk = true :=
  ⟨by decide, by decide⟩

/-- C10: the chain table with `B` buckets keeps `capacity() = B` across
any operation sequence; inserting `n` distinct keys always succeeds —
`size() = n` — and `loadFactor() = n/B`, which exceeds 1 as soon as
`n > B`. -/
theorem C10_chain_fixed_capacity (hash : ℕ → ℕ) (B : ℕ) (hB : 0 < B)
    (ps : List (ℕ × ℕ)) (hn : (ps.map Prod.fst).Nodup)
    (ops : List FixedListChainedHashTable.Op) :
    FixedListChainedHashTable.capacity
      (FixedListChainedHashTable.applyOps hash (FixedListChainedHashTable.mk B) ops) = B ∧
    FixedListChainedHashTable.size
      (FixedListChainedHashTable.insertAll hash (FixedListChainedHashTable.mk B) ps) =
        ps.length ∧
    FixedListChainedHashTable.loadFactor
      (FixedListChainedHashTable.insertAll hash (FixedListChainedHashTable.mk B) ps) =
        (ps.length : ℚ) / (B : ℚ) ∧
    (B < ps.length → 1 < FixedListChainedHashTable.loadFactor
      (FixedListChainedHashTable.insertAll hash (FixedListChainedHashTable.mk B) ps)) := by
  have hsize : (FixedListChainedHashTable.insertAll hash (FixedListChainedHashTable.mk B)
      ps).size_ = ps.length := by
    rw [FixedListChainedHashTable.insertAll_size hash _ ps hn
      (fun p _ => FixedListChainedHashTable.fresh_lookup_none hash B p.1)]
    show 0 + ps.length = ps.length
    exact Nat.zero_add ps.length
  have hcap : (FixedListChainedHashTable.insertAll hash (FixedListChainedHashTable.mk B)
      ps).capacity_ = B :=
    FixedListChainedHashTable.insertAll_capacity hash _ ps
  have hlf : FixedListChainedHashTable.loadFactor
      (FixedListChainedHashTable.insertAll hash (FixedListChainedHashTable.mk B) ps) =
      (ps.length : ℚ) / (B : ℚ) := by
    unfold FixedListChainedHashTable.loadFactor
    rw [hsize, hcap]
  refine ⟨?_, hsize, hlf, ?_⟩
  · show (FixedListChainedHashTable.applyOps hash (FixedListChainedHashTable.mk B)
      ops).capacity_ = B
    rw [FixedListChainedHashTable.applyOps_capacity]
    rfl
  · intro hlt
    rw [hlf]
    rw [one_lt_div (by exact_mod_cast hB)]
    exact_mod_cast hlt

/-- C10 witness: three distinct keys into two buckets, and a mixed
operation sequence. -/
theorem C10_chain_fixed_capacity_witness :
    0 < 2 ∧ (c10ps.map Prod.fst).Nodup ∧
    (FixedListChainedHashTable.capacity
       (FixedListChainedHashTable.applyOps id (FixedListChainedHashTable.mk 2) c10ops) = 2 ∧
     FixedListChainedHashTable.size
       (FixedListChainedHashTable.insertAll id (FixedListChainedHashTable.mk 2) c10ps) =
         c10ps.length ∧
     FixedListChainedHashTable.loadFactor
       (FixedListChainedHashTable.insertAll id (FixedListChainedHashTable.mk 2) c10ps) =
         (c10ps.length : ℚ) / (2 : ℚ) ∧
     (2 < c10ps.length → 1 < FixedListChainedHashTable.loadFactor
       (FixedListChainedHashTable.insertAll id (FixedListChainedHashTable.mk 2) c10ps))) :=
  ⟨by decide, by decide, C10_chain_fixed_capacity id 2 (by decide) c10ps (by decide) c10ops⟩
